import Mathlib

/-!
Verification of the Cinema-Navigation camera-path planner.

The development shallowly embeds the planner's Python sources:
`src/path_planner.py` (look_at_three, astar, generate_panorama_path,
generate_safe_path), `src/explorer.py` (voxelize, compute_scene_bounds) and
`src/center_360_path.py` (compute_bounds, generate_center_360_path).

Integer/voxel arithmetic is embedded over `ℤ`/`ℕ`, exact coordinate
arithmetic over `ℚ`, and the floating-point camera math (normalisation,
trigonometry) is idealised over `ℝ`.  Python's `heapq` is modelled as a
multiset of `(priority, node)` entries from which a minimal-priority entry
is removed at each pop; the tie-break among equal-priority entries is kept
as an explicit parameter, with the lexicographic order used by Python's
tuple comparison as the concrete instance.
-/

namespace Cinema

/-- A voxel coordinate: a triple of signed integers (Python `(vx, vy, vz)`). -/
abbrev Coord : Type := ℤ × ℤ × ℤ

/-- A triple of exact rational coordinates, idealising a Python float triple. -/
abbrev Q3 : Type := ℚ × ℚ × ℚ

/-- Python's `int()` applied to a real quantity: truncation toward zero
(`floor` for nonnegative arguments, `ceil` for negative ones). -/
def pyInt (q : ℚ) : ℤ := if 0 ≤ q then ⌊q⌋ else ⌈q⌉

/-- The per-point voxel index computed by `explorer.voxelize` and by
`generate_safe_path`: `int(x / voxel_size)` on each axis. -/
def pyVox (p : Q3) (voxel_size : ℚ) : Coord :=
  (pyInt (p.1 / voxel_size), pyInt (p.2.1 / voxel_size), pyInt (p.2.2 / voxel_size))

/-- `explorer.voxelize`: every point's axis-wise truncated quotient is
collected into a set (duplicates collapse).  `zip` stops at the shortest
input, exactly like Python's `zip`. -/
def voxelize (xs ys zs : List ℚ) (voxel_size : ℚ) : Finset Coord :=
  ((xs.zip (ys.zip zs)).map (fun p => pyVox (p.1, p.2.1, p.2.2) voxel_size)).toFinset

/-- Minimum of a numpy array (`arr.min()`): defined only on nonempty input;
`none` models the `ValueError` numpy raises on an empty reduction. -/
def npMin : List ℚ → Option ℚ
  | [] => none
  | a :: r => some (r.foldl min a)

/-- Maximum of a numpy array (`arr.max()`), `none` on empty input. -/
def npMax : List ℚ → Option ℚ
  | [] => none
  | a :: r => some (r.foldl max a)

/-- Componentwise sum of rational triples. -/
def qadd (a b : Q3) : Q3 := (a.1 + b.1, a.2.1 + b.2.1, a.2.2 + b.2.2)

/-- Componentwise difference of rational triples. -/
def qsub (a b : Q3) : Q3 := (a.1 - b.1, a.2.1 - b.2.1, a.2.2 - b.2.2)

/-- Componentwise scaling of a rational triple. -/
def qsmul (c : ℚ) (a : Q3) : Q3 := (c * a.1, c * a.2.1, c * a.2.2)

/-- `center_360_path.compute_bounds`: per-axis min/max, centre
`(min + max) * 0.5` and size `max - min`; `none` models the `ValueError`
raised when the point cloud is empty. -/
def compute_bounds (xs ys zs : List ℚ) : Option (Q3 × Q3 × Q3 × Q3) :=
  match npMin xs, npMax xs, npMin ys, npMax ys, npMin zs, npMax zs with
  | some ax, some bx, some ay, some cy, some az, some bz =>
      let bmin : Q3 := (ax, ay, az)
      let bmax : Q3 := (bx, cy, bz)
      some (bmin, bmax, qsmul (1/2) (qadd bmin bmax), qsub bmax bmin)
  | _, _, _, _, _, _ => none

/-- Componentwise order on rational triples ("min ≤ max componentwise"). -/
def qle3 (a b : Q3) : Prop := a.1 ≤ b.1 ∧ a.2.1 ≤ b.2.1 ∧ a.2.2 ≤ b.2.2

instance (a b : Q3) : Decidable (qle3 a b) :=
  inferInstanceAs (Decidable (a.1 ≤ b.1 ∧ a.2.1 ≤ b.2.1 ∧ a.2.2 ≤ b.2.2))

/-! ### The frame-count arithmetic of `generate_center_360_path` -/

/-- `loops = max(1, int(loops))` in `generate_center_360_path`. -/
def orbitLoops (loops : ℤ) : ℤ := max 1 loops

/-- `slow_factor = max(0.1, float(slow_factor))` in `generate_center_360_path`. -/
def orbitSlow (slow : ℚ) : ℚ := max (1/10) slow

/-- `frames_per_loop = max(1, int(frames_per_loop))` in `generate_center_360_path`. -/
def orbitFpl (fpl : ℤ) : ℤ := max 1 fpl

/-- `total_frames = int(frames_per_loop * loops * slow_factor)` computed on the
clamped values. -/
def orbitTotalFrames (fpl loops : ℤ) (slow : ℚ) : ℤ :=
  pyInt ((orbitFpl fpl : ℚ) * (orbitLoops loops : ℚ) * orbitSlow slow)

/-- The frame count actually used by `generate_center_360_path`; `none` models
the `ValueError` raised when `total_frames <= 0`. -/
def orbitFrameCount (fpl loops : ℤ) (slow : ℚ) : Option ℤ :=
  let t := orbitTotalFrames fpl loops slow
  if t ≤ 0 then none else some t

/-! ### The A* search of `path_planner.astar`

The Python search runs over the implicit infinite integer lattice, with a
`heapq` priority queue of `(f, node)` pairs, dictionaries `g` (best known
cost) and `came` (predecessor), and the six axis moves.  The heap is
modelled as a list of entries from which a minimal-priority entry is
removed at each pop; ties among equal priorities are resolved by an
arbitrary tie-break parameter `tb`, instantiated below with the
lexicographic node order used by Python's tuple comparison.  The `while`
loop is given explicit fuel; `AOut.running` means the fuel was exhausted
with the loop still going. -/

/-- A priority-queue entry `(f, node)`. -/
abbrev Entry : Type := ℕ × Coord

/-- The six 6-connected moves of `astar`, in source order. -/
def moves : List Coord := [(1,0,0), (-1,0,0), (0,1,0), (0,-1,0), (0,0,1), (0,0,-1)]

/-- Componentwise sum of voxel coordinates (`(cur[0]+dx, cur[1]+dy, cur[2]+dz)`). -/
def addC (a b : Coord) : Coord := (a.1 + b.1, a.2.1 + b.2.1, a.2.2 + b.2.2)

/-- The Manhattan heuristic `h` of `astar`. -/
def hDist (a b : Coord) : ℕ :=
  (a.1 - b.1).natAbs + (a.2.1 - b.2.1).natAbs + (a.2.2 - b.2.2).natAbs

/-- First-match lookup in an association list, modelling a Python dict in
which an update prepends a fresh binding. -/
def lookupA {β : Type} : List (Coord × β) → Coord → Option β
  | [], _ => none
  | (k, v) :: r, c => if k = c then some v else lookupA r c

/-- The mutable state of one `astar` call: the heap, the cost dict `g` and
the predecessor dict `came`. -/
structure AState where
  openL : List Entry
  gm : List (Coord × ℕ)
  came : List (Coord × Option Coord)
deriving DecidableEq

/-- Choice of a better of two heap entries: strictly smaller priority wins,
equal priorities are resolved by the tie-break `tb`. -/
def better (tb : Entry → Entry → Bool) (a b : Entry) : Entry :=
  if a.1 < b.1 then a else if b.1 < a.1 then b else if tb a b then a else b

/-- The entry `heapq.heappop` removes: an entry of minimal priority. -/
def selMin (tb : Entry → Entry → Bool) (e : Entry) (l : List Entry) : Entry :=
  l.foldl (better tb) e

/-- Removal of one occurrence of an entry from the heap. -/
def eraseE : List Entry → Entry → List Entry
  | [], _ => []
  | x :: r, e => if x = e then r else x :: eraseE r e

/-- Relaxation of the single neighbour `cur + d`: skip occupied cells,
otherwise push `(cost + h, nxt)` and update `g` and `came` whenever the
tentative cost improves on the recorded one. -/
def relax (goal : Coord) (occ : Finset Coord) (cur : Coord) (gcur : ℕ)
    (st : AState) (d : Coord) : AState :=
  let nxt := addC cur d
  if nxt ∈ occ then st
  else
    let cost := gcur + 1
    let doPush : Bool :=
      match lookupA st.gm nxt with
      | none => true
      | some gv => decide (cost < gv)
    if doPush then
      { openL := (cost + hDist nxt goal, nxt) :: st.openL,
        gm := (nxt, cost) :: st.gm,
        came := (nxt, some cur) :: st.came }
    else st

/-- The inner `for` loop of `astar`: relax all six neighbours of `cur`. -/
def expand (goal : Coord) (occ : Finset Coord) (cur : Coord) (gcur : ℕ)
    (st : AState) : AState :=
  moves.foldl (relax goal occ cur gcur) st

/-- Backwards path reconstruction (`while cur: path.append(cur); cur = came[cur]`),
with fuel; `none` models a lookup failure or an unterminated chain, neither of
which occurs in reachable states. -/
def rebuild (came : List (Coord × Option Coord)) : ℕ → Coord → Option (List Coord)
  | 0, _ => none
  | fu + 1, cur =>
    match lookupA came cur with
    | none => none
    | some none => some [cur]
    | some (some p) => (rebuild came fu p).map (cur :: ·)

/-- Outcome of an `astar` call: still looping when the fuel ran out, an
internal lookup error (unreachable), Python `None`, or a path. -/
inductive AOut : Type
  | running : AOut
  | err : AOut
  | nopath : AOut
  | found : List Coord → AOut
deriving DecidableEq

/-- The `while open_set` loop of `astar`. -/
def astarLoop (tb : Entry → Entry → Bool) (goal : Coord) (occ : Finset Coord) :
    ℕ → AState → AOut
  | 0, _ => .running
  | fuel + 1, st =>
    match st.openL with
    | [] => .nopath
    | e :: rest =>
      let m := selMin tb e rest
      let st' : AState := { st with openL := eraseE st.openL m }
      if m.2 = goal then
        match rebuild st.came (st.came.length + 1) goal with
        | some l => .found l.reverse
        | none => .err
      else
        match lookupA st.gm m.2 with
        | none => .err
        | some gcur => astarLoop tb goal occ fuel (expand goal occ m.2 gcur st')

/-- The initial search state `open_set = [(0, start)]`, `g = {start: 0}`,
`came = {start: None}`. -/
def initState (start : Coord) : AState :=
  { openL := [(0, start)], gm := [(start, 0)], came := [(start, none)] }

/-- One `astar` call with an explicit tie-break order for the heap. -/
def astarSearch (tb : Entry → Entry → Bool) (start goal : Coord)
    (occ : Finset Coord) (fuel : ℕ) : AOut :=
  astarLoop tb goal occ fuel (initState start)

/-- Lexicographic comparison of voxel coordinates, as used by Python's
tuple comparison inside `heapq`. -/
def coordLe (a b : Coord) : Bool :=
  decide (a.1 < b.1 ∨ (a.1 = b.1 ∧ (a.2.1 < b.2.1 ∨ (a.2.1 = b.2.1 ∧ a.2.2 ≤ b.2.2))))

/-- The tie-break actually used by `heapq`: compare the node tuples. -/
def pyTb : Entry → Entry → Bool := fun a b => coordLe a.2 b.2

/-- `path_planner.astar` itself, with Python's deterministic heap order. -/
def astar (start goal : Coord) (occ : Finset Coord) (fuel : ℕ) : AOut :=
  astarSearch pyTb start goal occ fuel

/-! ### Camera math over `ℝ` (`look_at_three` and the path generators)

Floating-point vectors are idealised as real triples.  Division of a
vector by a scalar is componentwise; dividing by a zero norm, which
produces NaNs in numpy, here produces the junk value `0` — in both models
the call silently returns garbage instead of failing. -/

/-- A 3-vector of reals, idealising a numpy float array of length 3. -/
structure Vec3 where
  x : ℝ
  y : ℝ
  z : ℝ

@[ext] theorem Vec3.ext_iff' {a b : Vec3} (hx : a.x = b.x) (hy : a.y = b.y)
    (hz : a.z = b.z) : a = b := by
  cases a; cases b; simp_all

/-- Componentwise vector sum. -/
noncomputable def vadd (a b : Vec3) : Vec3 := ⟨a.x + b.x, a.y + b.y, a.z + b.z⟩

/-- Componentwise vector difference. -/
noncomputable def vsub (a b : Vec3) : Vec3 := ⟨a.x - b.x, a.y - b.y, a.z - b.z⟩

/-- Componentwise division of a vector by a scalar (numpy `v / c`). -/
noncomputable def vdiv (v : Vec3) (c : ℝ) : Vec3 := ⟨v.x / c, v.y / c, v.z / c⟩

/-- Euclidean dot product. -/
noncomputable def vdot (a b : Vec3) : ℝ := a.x * b.x + a.y * b.y + a.z * b.z

/-- Cross product (`np.cross`). -/
noncomputable def vcross (a b : Vec3) : Vec3 :=
  ⟨a.y * b.z - a.z * b.y, a.z * b.x - a.x * b.z, a.x * b.y - a.y * b.x⟩

/-- Euclidean norm (`np.linalg.norm`). -/
noncomputable def vnorm (v : Vec3) : ℝ := Real.sqrt (vdot v v)

/-- The zero vector. -/
def vzero : Vec3 := ⟨0, 0, 0⟩

/-- The camera-to-world matrix built by `look_at_three`: rows of the 3×3
rotation block and the translation column; the fourth row is the constant
`(0,0,0,1)` left from `np.eye(4)`. -/
structure Mat4 where
  r0 : Vec3
  r1 : Vec3
  r2 : Vec3
  trans : Vec3

/-- `path_planner.look_at_three`: backward axis `z`, right axis `x`, true
up `y`, assembled with the camera position as translation.  No input
validation is performed anywhere in this function. -/
noncomputable def look_at_three (camera_pos target : Vec3)
    (up : Vec3 := ⟨0, 1, 0⟩) : Mat4 :=
  let z0 := vsub camera_pos target
  let z_axis := vdiv z0 (vnorm z0)
  let x0 := vcross up z_axis
  let x_axis := vdiv x0 (vnorm x0)
  let y_axis := vcross z_axis x_axis
  { r0 := x_axis, r1 := y_axis, r2 := z_axis, trans := camera_pos }

/-- A produced frame: the camera-to-world matrix plus the field of view. -/
abbrev Frame : Type := Mat4 × ℝ

/-- `path_planner.generate_panorama_path`: `n_frames` positions on a circle
of the requested radius at fixed height, each looking at the centre point
at that same height.  A non-positive `n_frames` makes `range` empty, so the
function silently returns an empty path. -/
noncomputable def generate_panorama_path (n_frames : ℤ) (fov : ℝ)
    (radius height : ℝ) (center : Vec3) : List Frame :=
  (List.range n_frames.toNat).map fun i =>
    let angle : ℝ := 2 * Real.pi * (i : ℝ) / (n_frames : ℝ)
    let cam : Vec3 := ⟨center.x + radius * Real.cos angle, height,
      center.z + radius * Real.sin angle⟩
    (look_at_three cam ⟨center.x, height, center.z⟩, fov)

/-- The angle of frame `i` in `generate_center_360_path`:
`total_angle * (i / total_frames)` with `total_angle = 2π * loops`
(after clamping). -/
noncomputable def orbitAngle (loops total : ℤ) (i : ℕ) : ℝ :=
  2 * Real.pi * (orbitLoops loops : ℝ) * ((i : ℝ) / (total : ℝ))

/-- The camera position of frame `i` in `generate_center_360_path`:
`center + (cos(angle)*radius, 0, sin(angle)*radius)`. -/
noncomputable def orbitPos (center : Vec3) (radius : ℝ) (loops total : ℤ)
    (i : ℕ) : Vec3 :=
  vadd center ⟨Real.cos (orbitAngle loops total i) * radius, 0,
    Real.sin (orbitAngle loops total i) * radius⟩

/-- The frame-construction loop of `generate_center_360_path`, given the
scene centre and derived radius; `none` models the `ValueError` raised
when the computed `total_frames` is not positive.  Every frame looks at
the scene centre. -/
noncomputable def center360Frames (center : Vec3) (radius : ℝ) (fov : ℝ)
    (fpl loops : ℤ) (slow : ℚ) : Option (List Frame) :=
  (orbitFrameCount fpl loops slow).map fun total =>
    (List.range total.toNat).map fun i =>
      (look_at_three (orbitPos center radius loops total i) center, fov)

/-! ### `generate_safe_path` -/

/-- The world-space camera position for a voxel of the returned path:
`(vx * voxel_size, vy * voxel_size, vz * voxel_size)`. -/
def safeCam (voxel_size : ℚ) (v : Coord) : Q3 :=
  ((v.1 : ℚ) * voxel_size, (v.2.1 : ℚ) * voxel_size, (v.2.2 : ℚ) * voxel_size)

/-- The look-at target `generate_safe_path` uses for that camera position:
`np.array([0, cam[1], 0])` — x and z pinned to `0`, y copied from the
camera. -/
def safeTarget (voxel_size : ℚ) (v : Coord) : Q3 :=
  (0, (v.2.1 : ℚ) * voxel_size, 0)

/-- Interpretation of an exact rational triple as a real vector. -/
noncomputable def toVec3 (p : Q3) : Vec3 := ⟨(p.1 : ℝ), (p.2.1 : ℝ), (p.2.2 : ℝ)⟩

/-- `path_planner.generate_safe_path`: quantise the endpoints with `int()`,
run `astar`, and map every voxel of the path to an oriented frame.  `none`
covers both the raised `RuntimeError` (`astar` returned `None`) and a run
that did not finish within the fuel. -/
noncomputable def generate_safe_path (start_pos end_pos : Q3)
    (occ : Finset Coord) (voxel_size : ℚ) (fov : ℝ) (fuel : ℕ) :
    Option (List Frame) :=
  match astar (pyVox start_pos voxel_size) (pyVox end_pos voxel_size) occ fuel with
  | .found p => some (p.map fun v =>
      (look_at_three (toVec3 (safeCam voxel_size v)) (toVec3 (safeTarget voxel_size v)), fov))
  | _ => none

/-! ### Path validity (the specification side of the A* claims) -/

/-- One 6-connected step: the two coordinates differ by exactly 1 along
exactly one axis, i.e. their L1 distance is 1. -/
def Step (a b : Coord) : Prop := hDist a b = 1

instance (a b : Coord) : Decidable (Step a b) :=
  inferInstanceAs (Decidable (_ = _))

/-- A valid result of the search: starts at `start`, ends at `goal`, moves
by single axis steps, and never enters an occupied cell except possibly at
`start` (whose occupancy the search never checks). -/
def ValidPath (occ : Finset Coord) (start goal : Coord) (p : List Coord) : Prop :=
  p.head? = some start ∧ p.getLast? = some goal ∧ List.Chain' Step p ∧
    ∀ x ∈ p, x ≠ start → x ∉ occ

/-- A 6-connected route entirely through free cells, start included. -/
def FreePath (occ : Finset Coord) (start goal : Coord) (p : List Coord) : Prop :=
  p.head? = some start ∧ p.getLast? = some goal ∧ List.Chain' Step p ∧
    ∀ x ∈ p, x ∉ occ

instance (occ : Finset Coord) (s t : Coord) (p : List Coord) :
    Decidable (ValidPath occ s t p) :=
  inferInstanceAs (Decidable (p.head? = some s ∧ p.getLast? = some t ∧
    List.Chain' Step p ∧ ∀ x ∈ p, x ≠ s → x ∉ occ))

instance (occ : Finset Coord) (s t : Coord) (p : List Coord) :
    Decidable (FreePath occ s t p) :=
  inferInstanceAs (Decidable (p.head? = some s ∧ p.getLast? = some t ∧
    List.Chain' Step p ∧ ∀ x ∈ p, x ∉ occ))

/-! ### Search invariants

The predicates below relate the three components of an `astar` state.
`GoodAt` is the frontier property: a node recorded in `g` either still has
a usefully-priced heap entry, or has already been expanded, in which case
all its free neighbours are recorded with cost at most one more.
`InvBase` collects the bookkeeping facts tying `open`, `g` and `came`
together. -/

/-- Frontier property of one recorded node. -/
def GoodAt (goal : Coord) (occ : Finset Coord) (st : AState) (x : Coord) : Prop :=
  ∀ gx, lookupA st.gm x = some gx →
    (∃ pri, (pri, x) ∈ st.openL ∧ pri ≤ gx + hDist x goal) ∨
    (∀ d ∈ moves, addC x d ∉ occ →
      ∃ gy, lookupA st.gm (addC x d) = some gy ∧ gy ≤ gx + 1)

/-- Bookkeeping invariants of a reachable `astar` state. -/
structure InvBase (start goal : Coord) (occ : Finset Coord) (st : AState) : Prop where
  gstart : lookupA st.gm start = some 0
  cstart : lookupA st.came start = some none
  openg : ∀ pri x, (pri, x) ∈ st.openL →
    ∃ gv, lookupA st.gm x = some gv ∧ (gv + hDist x goal ≤ pri ∨ (x = start ∧ pri = 0))
  camev : ∀ x p, lookupA st.came x = some (some p) →
    x ∉ occ ∧ Step p x ∧ ∃ gx gp, lookupA st.gm x = some gx ∧
      lookupA st.gm p = some gp ∧ gp < gx
  camen : ∀ x, lookupA st.came x = some none → x = start
  gkeys : ∀ x gx, lookupA st.gm x = some gx →
    (∃ o, lookupA st.came x = some o) ∧ gx < st.came.length
  goalopen : ∀ gg, lookupA st.gm goal = some gg →
    ∃ pri, (pri, goal) ∈ st.openL ∧ pri ≤ gg

/-- The full invariant: bookkeeping plus the frontier property everywhere. -/
def Inv (start goal : Coord) (occ : Finset Coord) (st : AState) : Prop :=
  InvBase start goal occ st ∧ ∀ x, GoodAt goal occ st x

/-- The state produced by a successful relaxation push of `nxt` from `cur`. -/
def pushState (goal : Coord) (cur : Coord) (gcur : ℕ) (st : AState)
    (nxt : Coord) : AState :=
  { openL := (gcur + 1 + hDist nxt goal, nxt) :: st.openL,
    gm := (nxt, gcur + 1) :: st.gm,
    came := (nxt, some cur) :: st.came }

/-- One direction of `cur` has been fully relaxed at base cost `gcur`. -/
def ClosedAt (occ : Finset Coord) (st : AState) (cur : Coord) (gcur : ℕ)
    (d : Coord) : Prop :=
  addC cur d ∉ occ → ∃ gy, lookupA st.gm (addC cur d) = some gy ∧ gy ≤ gcur + 1

/-- All recorded costs and all recorded nodes stay within the budget
dictated by one known free route of length `mq`. -/
def gBound (goal : Coord) (mq : ℕ) (st : AState) : Prop :=
  ∀ x v, lookupA st.gm x = some v → v ≤ mq + 1 ∧ hDist x goal ≤ mq + 1

/-- The finite box of all nodes within L1 radius `r` of the goal. -/
def box (goal : Coord) (r : ℕ) : Finset Coord :=
  (Finset.Icc (goal.1 - r) (goal.1 + r)) ×ˢ
    ((Finset.Icc (goal.2.1 - r) (goal.2.1 + r)) ×ˢ
      (Finset.Icc (goal.2.2 - r) (goal.2.2 + r)))

/-- Remaining cost slack of one node: recorded cost, or `mq + 2` if the
node has not been recorded yet. -/
def slack (mq : ℕ) (g : List (Coord × ℕ)) (x : Coord) : ℕ :=
  match lookupA g x with
  | none => mq + 2
  | some v => v

/-- Termination potential of a search state: heap size plus total slack
over the relevant box.  Every loop iteration strictly decreases it. -/
def phi (goal : Coord) (mq : ℕ) (st : AState) : ℕ :=
  st.openL.length + ∑ x ∈ box goal (mq + 1), slack mq st.gm x

/-- The occupancy set sealing the origin on all six faces. -/
def sealedOcc : Finset Coord :=
  {(1,0,0), (-1,0,0), (0,1,0), (0,-1,0), (0,0,1), (0,0,-1)}

/-- Extra invariant of the sealed-goal run: no heap entry ever names an
occupied cell, and the goal is never recorded. -/
def SealInv (st : AState) : Prop :=
  (∀ pri x, (pri, x) ∈ st.openL → x ∉ sealedOcc) ∧
    lookupA st.gm ((0:ℤ), (0:ℤ), (0:ℤ)) = none

/-! ## C3: voxel quantisation -/

/-- Python truncation agrees with `floor` exactly on nonnegative arguments. -/
theorem pyInt_of_nonneg {q : ℚ} (h : 0 ≤ q) : pyInt q = ⌊q⌋ := if_pos h

/-- C3 counterexample: with cell size 1 the points `(-1/2,0,0)` and
`(1/2,0,0)` lie in different floor lattice cells, yet `voxelize` collapses
them into the single voxel `(0,0,0)`; in particular the computed index of
the negative point is not `floor(point / cellSize)`. -/
theorem voxelize_not_floor :
    voxelize [-(1/2), 1/2] [0, 0] [0, 0] 1 = {((0:ℤ), (0:ℤ), (0:ℤ))} ∧
    (⌊((-(1/2) : ℚ)) / 1⌋ : ℤ) ≠ ⌊((1/2 : ℚ)) / 1⌋ ∧
    pyVox (-(1/2), 0, 0) 1 ≠ (⌊((-(1/2) : ℚ)) / 1⌋, (0:ℤ), (0:ℤ)) := by
  have hceil : (⌈(-(1/2) : ℚ)⌉ : ℤ) = 0 := by
    rw [Int.ceil_eq_iff]
    norm_num
  refine ⟨?_, by norm_num, ?_⟩
  · norm_num [voxelize, pyVox, pyInt, hceil]
  · norm_num [pyVox, pyInt, hceil, Prod.ext_iff]

/-- C3 amended: the voxelizer computes the truncated-toward-zero quotient
`int(point / cellSize)` per axis.  For points with nonnegative coordinates
and a positive cell size this agrees with `floor(point / cellSize)`, and
then two points share a voxel coordinate iff they share the floor lattice
cell; for negative coordinates truncation and floor differ. -/
theorem voxel_floor_of_nonneg (p : Q3) (cs : ℚ) (hcs : 0 < cs)
    (hx : 0 ≤ p.1) (hy : 0 ≤ p.2.1) (hz : 0 ≤ p.2.2) :
    pyVox p cs = (⌊p.1 / cs⌋, ⌊p.2.1 / cs⌋, ⌊p.2.2 / cs⌋) ∧
    ∀ q : Q3, 0 ≤ q.1 → 0 ≤ q.2.1 → 0 ≤ q.2.2 →
      (pyVox p cs = pyVox q cs ↔
        (⌊p.1 / cs⌋, ⌊p.2.1 / cs⌋, ⌊p.2.2 / cs⌋) =
          (⌊q.1 / cs⌋, ⌊q.2.1 / cs⌋, ⌊q.2.2 / cs⌋)) := by
  have key : ∀ a : ℚ, 0 ≤ a → pyInt (a / cs) = ⌊a / cs⌋ := fun a ha =>
    pyInt_of_nonneg (div_nonneg ha hcs.le)
  constructor
  · simp only [pyVox, key p.1 hx, key p.2.1 hy, key p.2.2 hz]
  · intro q hqx hqy hqz
    simp only [pyVox, key p.1 hx, key p.2.1 hy, key p.2.2 hz,
      key q.1 hqx, key q.2.1 hqy, key q.2.2 hqz]

/-- Witness for `voxel_floor_of_nonneg` at `p = (3/2, 0, 5)`, `cs = 2`. -/
theorem voxel_floor_of_nonneg_witness :
    ((0:ℚ) < 2 ∧ (0:ℚ) ≤ 3/2 ∧ (0:ℚ) ≤ 0 ∧ (0:ℚ) ≤ 5) ∧
    (pyVox ((3:ℚ)/2, (0:ℚ), (5:ℚ)) 2 =
      (⌊((3:ℚ)/2) / 2⌋, ⌊((0:ℚ)) / 2⌋, ⌊((5:ℚ)) / 2⌋) ∧
    ∀ q : Q3, 0 ≤ q.1 → 0 ≤ q.2.1 → 0 ≤ q.2.2 →
      (pyVox ((3:ℚ)/2, (0:ℚ), (5:ℚ)) 2 = pyVox q 2 ↔
        (⌊((3:ℚ)/2) / 2⌋, ⌊((0:ℚ)) / 2⌋, ⌊((5:ℚ)) / 2⌋) =
          (⌊q.1 / 2⌋, ⌊q.2.1 / 2⌋, ⌊q.2.2 / 2⌋))) :=
  ⟨by norm_num,
    voxel_floor_of_nonneg ((3:ℚ)/2, (0:ℚ), (5:ℚ)) 2 (by norm_num) (by norm_num)
      (by norm_num) (by norm_num)⟩

/-! ## C9: bounds extraction -/

/-- A left fold with `min` only decreases the accumulator. -/
theorem foldl_min_le (l : List ℚ) : ∀ a : ℚ, l.foldl min a ≤ a := by
  induction l with
  | nil => intro a; exact le_refl a
  | cons b r ih =>
    intro a
    calc (b :: r).foldl min a = r.foldl min (min a b) := rfl
    _ ≤ min a b := ih (min a b)
    _ ≤ a := min_le_left a b

/-- A left fold with `max` only increases the accumulator. -/
theorem le_foldl_max (l : List ℚ) : ∀ a : ℚ, a ≤ l.foldl max a := by
  induction l with
  | nil => intro a; exact le_refl a
  | cons b r ih =>
    intro a
    calc a ≤ max a b := le_max_left a b
    _ ≤ r.foldl max (max a b) := ih (max a b)
    _ = (b :: r).foldl max a := rfl

/-- C9: on an empty cloud `compute_bounds` fails; on a nonempty cloud it
returns bounds with `min ≤ max` componentwise and a centre that is exactly
`(min + max) / 2` on every axis. -/
theorem compute_bounds_spec (xs ys zs : List ℚ)
    (hxy : xs.length = ys.length) (hxz : xs.length = zs.length) :
    (xs = [] → compute_bounds xs ys zs = none) ∧
    (xs ≠ [] → ∃ bmin bmax c s, compute_bounds xs ys zs = some (bmin, bmax, c, s) ∧
      qle3 bmin bmax ∧
      c.1 = (bmin.1 + bmax.1) / 2 ∧ c.2.1 = (bmin.2.1 + bmax.2.1) / 2 ∧
      c.2.2 = (bmin.2.2 + bmax.2.2) / 2) := by
  constructor
  · rintro rfl
    rfl
  · intro hne
    match xs, ys, zs, hxy, hxz with
    | [], _, _, _, _ => exact absurd rfl hne
    | a :: xr, [], _, hxy, _ => exact absurd hxy (by simp)
    | a :: xr, b :: yr, [], _, hxz => exact absurd hxz (by simp)
    | a :: xr, b :: yr, c :: zr, _, _ =>
      refine ⟨(xr.foldl min a, yr.foldl min b, zr.foldl min c),
        (xr.foldl max a, yr.foldl max b, zr.foldl max c), _, _, rfl, ?_, ?_, ?_, ?_⟩
      · exact ⟨le_trans (foldl_min_le xr a) (le_foldl_max xr a),
          le_trans (foldl_min_le yr b) (le_foldl_max yr b),
          le_trans (foldl_min_le zr c) (le_foldl_max zr c)⟩
      · simp only [qsmul, qadd]
        ring
      · simp only [qsmul, qadd]
        ring
      · simp only [qsmul, qadd]
        ring

/-! ## C5: the Orbit360 frame count and geometry -/

/-- C5 counterexample: with `loops = 0` the claimed formula
`max(1, floor(fpl * loops * slow))` yields 1, but the code clamps `loops`
to 1 before multiplying and produces 720 frames; and at
`(fpl, loops, slow) = (5, 1, 1/10)` the code raises (`none`) instead of
producing the claimed minimum of one frame. -/
theorem center360_count_counterexample :
    orbitFrameCount 360 0 2 = some 720 ∧
    max 1 (pyInt ((360 : ℚ) * 0 * 2)) = 1 ∧ ((720 : ℤ) ≠ 1) ∧
    orbitFrameCount 5 1 (1/10) = none := by
  norm_num [orbitFrameCount, orbitTotalFrames, orbitFpl, orbitLoops, orbitSlow, pyInt]

/-- The translation row of a look-at matrix is the camera position. -/
theorem look_at_three_trans (c t u : Vec3) : (look_at_three c t u).trans = c := rfl

/-- C5 amended: `generate_center_360_path` produces
`int(max(1,fpl) * max(1,loops) * max(0.1,slow))` frames, raising when that
value is not positive (there is no minimum of one frame); frame `i` of
`T` sits at angle `2π * max(1,loops) * (i/T)` at position
`center + (cos(angle)*radius, 0, sin(angle)*radius)`. -/
theorem center360_frames_spec (center : Vec3) (radius fov : ℝ)
    (fpl loops : ℤ) (slow : ℚ) :
    (center360Frames center radius fov fpl loops slow = none ↔
      orbitTotalFrames fpl loops slow ≤ 0) ∧
    ∀ total fs, orbitFrameCount fpl loops slow = some total →
      center360Frames center radius fov fpl loops slow = some fs →
      (0 < total ∧
        total = pyInt ((orbitFpl fpl : ℚ) * (orbitLoops loops : ℚ) * orbitSlow slow)) ∧
      fs.length = total.toNat ∧
      ∀ i (hi : i < fs.length),
        (fs[i].1.trans =
          vadd center ⟨Real.cos (orbitAngle loops total i) * radius, 0,
            Real.sin (orbitAngle loops total i) * radius⟩) ∧
        fs[i].2 = fov := by
  constructor
  · by_cases h : orbitTotalFrames fpl loops slow ≤ 0 <;>
      simp [center360Frames, orbitFrameCount, h]
  · intro total fs h1 h2
    have ht : ¬ orbitTotalFrames fpl loops slow ≤ 0 := by
      intro hle
      rw [orbitFrameCount, if_pos hle] at h1
      exact Option.noConfusion h1
    have htot : total = orbitTotalFrames fpl loops slow := by
      rw [orbitFrameCount, if_neg ht] at h1
      exact (Option.some.injEq _ _ ▸ h1).symm
    have hfs : fs = (List.range total.toNat).map fun i =>
        (look_at_three (orbitPos center radius loops total i) center, fov) := by
      rw [center360Frames, h1] at h2
      exact (Option.some.injEq _ _ ▸ h2).symm
    refine ⟨⟨by omega, htot⟩, by simp [hfs], ?_⟩
    intro i hi
    subst hfs
    simp only [List.getElem_map, List.getElem_range]
    exact ⟨look_at_three_trans _ _ _, trivial⟩

/-- Witness for `center360_frames_spec` at `fpl = loops = slow = 1`,
`center = 0`, `radius = 1`, `fov = 60`. -/
theorem center360_frames_spec_witness :
    (orbitFrameCount 1 1 1 = some 1 ∧
     center360Frames vzero 1 60 1 1 1 =
       some [(look_at_three (orbitPos vzero 1 1 1 0) vzero, (60:ℝ))]) ∧
    ((0 < (1:ℤ) ∧
        (1:ℤ) = pyInt ((orbitFpl 1 : ℚ) * (orbitLoops 1 : ℚ) * orbitSlow 1)) ∧
      ([(look_at_three (orbitPos vzero 1 1 1 0) vzero, (60:ℝ))].length = (1:ℤ).toNat ∧
      ∀ i (hi : i < [(look_at_three (orbitPos vzero 1 1 1 0) vzero, (60:ℝ))].length),
        ([(look_at_three (orbitPos vzero 1 1 1 0) vzero, (60:ℝ))][i].1.trans =
          vadd vzero ⟨Real.cos (orbitAngle 1 1 i) * 1, 0,
            Real.sin (orbitAngle 1 1 i) * 1⟩) ∧
        [(look_at_three (orbitPos vzero 1 1 1 0) vzero, (60:ℝ))][i].2 = (60:ℝ))) := by
  have hcount : orbitFrameCount 1 1 1 = some 1 := by
    norm_num [orbitFrameCount, orbitTotalFrames, orbitFpl, orbitLoops, orbitSlow, pyInt]
  have hframes : center360Frames vzero 1 60 1 1 1 =
      some [(look_at_three (orbitPos vzero 1 1 1 0) vzero, (60:ℝ))] := by
    rw [center360Frames, hcount]
    rfl
  exact ⟨⟨hcount, hframes⟩,
    (center360_frames_spec vzero 1 60 1 1 1).2 1 _ hcount hframes⟩

/-! ## C7: absence of boundary parameter validation -/

/-- C7: the code performs no boundary validation.  A non-positive frame
count makes `generate_panorama_path` silently return an empty path (the
`range` is empty), and a negative cell size is consumed by `voxelize`
without complaint, producing truncated-division indices. -/
theorem no_parameter_validation :
    generate_panorama_path 0 60 4 (8/5) vzero = [] ∧
    generate_panorama_path (-3) 60 4 (8/5) vzero = [] ∧
    voxelize [1] [1] [1] (-1) = {((-1:ℤ), (-1:ℤ), (-1:ℤ))} := by
  have hc : (⌈(-1 : ℚ)⌉ : ℤ) = -1 := by
    rw [Int.ceil_eq_iff]
    norm_num
  refine ⟨rfl, rfl, ?_⟩
  norm_num [voxelize, pyVox, pyInt, hc]

/-! ## C4: degenerate look-at inputs are not rejected -/

/-- C4: `look_at_three` contains no error path.  With `position == target`
the backward axis is the zero vector divided by its zero norm — junk (NaNs
in numpy, the zero vector in this idealisation) — and the call still
returns a matrix; likewise an `up` vector parallel to the backward
direction silently yields a zero right axis. -/
theorem look_at_three_degenerate_silent (p u : Vec3) :
    (look_at_three p p u).r2 = vzero ∧
    (look_at_three p p u).trans = p ∧
    (look_at_three ⟨0, 0, 1⟩ vzero ⟨0, 0, 2⟩).r0 = vzero := by
  refine ⟨?_, rfl, ?_⟩
  · show vdiv (vsub p p) (vnorm (vsub p p)) = vzero
    have hz : vsub p p = vzero := by
      simp [vsub, vzero]
    rw [hz]
    simp [vdiv, vzero]
  · show vdiv (vcross ⟨0, 0, 2⟩ (vdiv (vsub ⟨0, 0, 1⟩ vzero) (vnorm (vsub ⟨0, 0, 1⟩ vzero))))
      (vnorm (vcross ⟨0, 0, 2⟩ (vdiv (vsub ⟨0, 0, 1⟩ vzero) (vnorm (vsub ⟨0, 0, 1⟩ vzero))))) = vzero
    have h1 : vsub ⟨0, 0, 1⟩ vzero = (⟨0, 0, 1⟩ : Vec3) := by
      simp [vsub, vzero]
    have h2 : vnorm (⟨0, 0, 1⟩ : Vec3) = 1 := by
      simp [vnorm, vdot]
    have h3 : vdiv (⟨0, 0, 1⟩ : Vec3) 1 = ⟨0, 0, 1⟩ := by
      simp [vdiv]
    have h4 : vcross ⟨0, 0, 2⟩ (⟨0, 0, 1⟩ : Vec3) = vzero := by
      simp [vcross, vzero]
    have h5 : vnorm vzero = 0 := by
      simp [vnorm, vdot, vzero]
    rw [h1, h2, h3, h4, h5]
    simp [vdiv, vzero]

/-! ## C8: orthonormality of the look-at rotation block -/

/-- The dot square of a vector is nonnegative. -/
theorem vdot_self_nonneg (v : Vec3) : 0 ≤ vdot v v := by
  unfold vdot
  nlinarith [mul_self_nonneg v.x, mul_self_nonneg v.y, mul_self_nonneg v.z]

/-- A vector has zero dot square exactly when it is the zero vector. -/
theorem vdot_self_eq_zero {v : Vec3} : vdot v v = 0 ↔ v = vzero := by
  constructor
  · intro h
    have hx : v.x * v.x = 0 := by
      unfold vdot at h
      nlinarith [mul_self_nonneg v.x, mul_self_nonneg v.y, mul_self_nonneg v.z]
    have hy : v.y * v.y = 0 := by
      unfold vdot at h
      nlinarith [mul_self_nonneg v.x, mul_self_nonneg v.y, mul_self_nonneg v.z]
    have hz : v.z * v.z = 0 := by
      unfold vdot at h
      nlinarith [mul_self_nonneg v.x, mul_self_nonneg v.y, mul_self_nonneg v.z]
    exact Vec3.ext_iff' (mul_self_eq_zero.mp hx) (mul_self_eq_zero.mp hy)
      (mul_self_eq_zero.mp hz)
  · rintro rfl
    simp [vdot, vzero]

/-- A nonzero vector has a positive dot square. -/
theorem vdot_self_pos {v : Vec3} (h : v ≠ vzero) : 0 < vdot v v :=
  lt_of_le_of_ne (vdot_self_nonneg v) fun he => h (vdot_self_eq_zero.mp he.symm)

/-- A nonzero vector has positive norm. -/
theorem vnorm_pos {v : Vec3} (h : v ≠ vzero) : 0 < vnorm v :=
  Real.sqrt_pos.mpr (vdot_self_pos h)

/-- The square of the norm is the dot square. -/
theorem vnorm_mul_self (v : Vec3) : vnorm v * vnorm v = vdot v v :=
  Real.mul_self_sqrt (vdot_self_nonneg v)

/-- Normalising a nonzero vector yields a unit dot square. -/
theorem unit_vdot {v : Vec3} (h : v ≠ vzero) :
    vdot (vdiv v (vnorm v)) (vdiv v (vnorm v)) = 1 := by
  have hn := vnorm_pos h
  have hq : vdot (vdiv v (vnorm v)) (vdiv v (vnorm v)) =
      vdot v v / (vnorm v * vnorm v) := by
    unfold vdiv vdot
    field_simp
  rw [hq, vnorm_mul_self]
  exact div_self (ne_of_gt (vdot_self_pos h))

/-- A cross product is orthogonal to its first factor. -/
theorem vcross_dot_left (a b : Vec3) : vdot (vcross a b) a = 0 := by
  unfold vcross vdot
  ring

/-- A cross product is orthogonal to its second factor. -/
theorem vcross_dot_right (a b : Vec3) : vdot (vcross a b) b = 0 := by
  unfold vcross vdot
  ring

/-- The Lagrange identity for the cross product. -/
theorem vcross_lagrange (a b : Vec3) :
    vdot (vcross a b) (vcross a b) =
      vdot a a * vdot b b - vdot a b * vdot a b := by
  unfold vcross vdot
  ring

/-- Crossing with a scaled vector scales the cross product. -/
theorem vcross_vdiv_right (a b : Vec3) (c : ℝ) :
    vcross a (vdiv b c) = vdiv (vcross a b) c := by
  unfold vcross vdiv
  refine Vec3.ext_iff' ?_ ?_ ?_ <;> ring

/-- Dividing a vector by a nonzero scalar preserves being nonzero. -/
theorem vdiv_ne_zero {v : Vec3} {c : ℝ} (hv : v ≠ vzero) (hc : c ≠ 0) :
    vdiv v c ≠ vzero := by
  intro h
  apply hv
  have hx : v.x / c = 0 := congrArg Vec3.x h
  have hy : v.y / c = 0 := congrArg Vec3.y h
  have hz : v.z / c = 0 := congrArg Vec3.z h
  exact Vec3.ext_iff' (by field_simp at hx; exact hx) (by field_simp at hy; exact hy)
    (by field_simp at hz; exact hz)

/-- A dot product with a divided left factor divides the dot product. -/
theorem vdot_vdiv_left (v w : Vec3) (c : ℝ) :
    vdot (vdiv v c) w = vdot v w / c := by
  unfold vdiv vdot
  ring

/-- C8: for a non-degenerate triple, every row of the rotation block of
`look_at_three` has unit length and the rows are mutually orthogonal (so
certainly within the stated `1e-6` tolerance), and the translation column
is the camera position. -/
theorem look_at_three_orthonormal (p t u : Vec3)
    (h1 : vsub p t ≠ vzero) (h2 : vcross u (vsub p t) ≠ vzero) :
    (|vnorm (look_at_three p t u).r0 - 1| ≤ 1/1000000 ∧
     |vnorm (look_at_three p t u).r1 - 1| ≤ 1/1000000 ∧
     |vnorm (look_at_three p t u).r2 - 1| ≤ 1/1000000) ∧
    (|vdot (look_at_three p t u).r0 (look_at_three p t u).r1| ≤ 1/1000000 ∧
     |vdot (look_at_three p t u).r0 (look_at_three p t u).r2| ≤ 1/1000000 ∧
     |vdot (look_at_three p t u).r1 (look_at_three p t u).r2| ≤ 1/1000000) ∧
    (look_at_three p t u).trans = p := by
  set z0 := vsub p t with hz0
  set zax := vdiv z0 (vnorm z0) with hzax
  set x0 := vcross u zax with hx0
  set xax := vdiv x0 (vnorm x0) with hxax
  set yax := vcross zax xax with hyax
  have hM0 : (look_at_three p t u).r0 = xax := rfl
  have hM1 : (look_at_three p t u).r1 = yax := rfl
  have hM2 : (look_at_three p t u).r2 = zax := rfl
  have hMt : (look_at_three p t u).trans = p := rfl
  have hzz : vdot zax zax = 1 := unit_vdot h1
  have hnz0 : vnorm z0 ≠ 0 := ne_of_gt (vnorm_pos h1)
  have hx0ne : x0 ≠ vzero := by
    rw [hx0, hzax, vcross_vdiv_right]
    exact vdiv_ne_zero h2 hnz0
  have hxx : vdot xax xax = 1 := unit_vdot hx0ne
  have hxz : vdot xax zax = 0 := by
    rw [hxax, vdot_vdiv_left, hx0, vcross_dot_right, zero_div]
  have hyz : vdot yax zax = 0 := by
    rw [hyax]
    exact vcross_dot_left zax xax
  have hyx : vdot yax xax = 0 := by
    rw [hyax]
    exact vcross_dot_right zax xax
  have hzx : vdot zax xax = 0 := by
    have : vdot zax xax = vdot xax zax := by
      unfold vdot
      ring
    rw [this, hxz]
  have hyy : vdot yax yax = 1 := by
    rw [hyax, vcross_lagrange, hzz, hxx, hzx]
    norm_num
  have hxy : vdot xax yax = 0 := by
    have : vdot xax yax = vdot yax xax := by
      unfold vdot
      ring
    rw [this, hyx]
  have hnorm1 : ∀ w : Vec3, vdot w w = 1 → |vnorm w - 1| ≤ 1/1000000 := by
    intro w hw
    have : vnorm w = 1 := by
      rw [vnorm, hw]
      exact Real.sqrt_one
    rw [this]
    norm_num
  refine ⟨⟨?_, ?_, ?_⟩, ⟨?_, ?_, ?_⟩, hMt⟩
  · rw [hM0]; exact hnorm1 xax hxx
  · rw [hM1]; exact hnorm1 yax hyy
  · rw [hM2]; exact hnorm1 zax hzz
  · rw [hM0, hM1, hxy]; norm_num
  · rw [hM0, hM2, hxz]; norm_num
  · rw [hM1, hM2, hyz]; norm_num

/-- Witness for `look_at_three_orthonormal` at the camera one unit in
front of the origin with the canonical up vector. -/
theorem look_at_three_orthonormal_witness :
    (vsub ⟨0, 0, 1⟩ vzero ≠ vzero ∧
     vcross ⟨0, 1, 0⟩ (vsub ⟨0, 0, 1⟩ vzero) ≠ vzero) ∧
    ((|vnorm (look_at_three ⟨0, 0, 1⟩ vzero ⟨0, 1, 0⟩).r0 - 1| ≤ 1/1000000 ∧
      |vnorm (look_at_three ⟨0, 0, 1⟩ vzero ⟨0, 1, 0⟩).r1 - 1| ≤ 1/1000000 ∧
      |vnorm (look_at_three ⟨0, 0, 1⟩ vzero ⟨0, 1, 0⟩).r2 - 1| ≤ 1/1000000) ∧
     (|vdot (look_at_three ⟨0, 0, 1⟩ vzero ⟨0, 1, 0⟩).r0
        (look_at_three ⟨0, 0, 1⟩ vzero ⟨0, 1, 0⟩).r1| ≤ 1/1000000 ∧
      |vdot (look_at_three ⟨0, 0, 1⟩ vzero ⟨0, 1, 0⟩).r0
        (look_at_three ⟨0, 0, 1⟩ vzero ⟨0, 1, 0⟩).r2| ≤ 1/1000000 ∧
      |vdot (look_at_three ⟨0, 0, 1⟩ vzero ⟨0, 1, 0⟩).r1
        (look_at_three ⟨0, 0, 1⟩ vzero ⟨0, 1, 0⟩).r2| ≤ 1/1000000) ∧
     (look_at_three ⟨0, 0, 1⟩ vzero ⟨0, 1, 0⟩).trans = ⟨0, 0, 1⟩) := by
  have ha : vsub ⟨0, 0, 1⟩ vzero ≠ vzero := by
    intro h
    have := congrArg Vec3.z h
    simp [vsub, vzero] at this
  have hb : vcross ⟨0, 1, 0⟩ (vsub ⟨0, 0, 1⟩ vzero) ≠ vzero := by
    intro h
    have := congrArg Vec3.x h
    simp [vcross, vsub, vzero] at this
  exact ⟨⟨ha, hb⟩, look_at_three_orthonormal ⟨0, 0, 1⟩ vzero ⟨0, 1, 0⟩ ha hb⟩

/-! ## C6: the SafeRoute look-at target -/

/-- C6 counterexample: routing from `(0,0,0)` to `(0,1,0)` on a free map
produces two frames whose look-at targets are `(0,0,0)` and `(0,1,0)` — the
target is not the world origin and is not even the same point for every
frame; it tracks the waypoint height. -/
theorem safe_route_target_counterexample :
    generate_safe_path ((0:ℚ), (0:ℚ), (0:ℚ)) ((0:ℚ), (1:ℚ), (0:ℚ)) ∅ 1 60 2 =
      some [(look_at_three (toVec3 (safeCam 1 (0, 0, 0)))
               (toVec3 (safeTarget 1 (0, 0, 0))), 60),
            (look_at_three (toVec3 (safeCam 1 (0, 1, 0)))
               (toVec3 (safeTarget 1 (0, 1, 0))), 60)] ∧
    safeTarget 1 ((0:ℤ), (1:ℤ), (0:ℤ)) ≠ ((0:ℚ), (0:ℚ), (0:ℚ)) ∧
    safeTarget 1 ((0:ℤ), (1:ℤ), (0:ℤ)) ≠ safeTarget 1 ((0:ℤ), (0:ℤ), (0:ℤ)) := by
  have hvA : pyVox ((0:ℚ), (0:ℚ), (0:ℚ)) 1 = ((0:ℤ), (0:ℤ), (0:ℤ)) := by
    norm_num [pyVox, pyInt]
  have hvB : pyVox ((0:ℚ), (1:ℚ), (0:ℚ)) 1 = ((0:ℤ), (1:ℤ), (0:ℤ)) := by
    norm_num [pyVox, pyInt]
  have hrun : astar ((0:ℤ), (0:ℤ), (0:ℤ)) ((0:ℤ), (1:ℤ), (0:ℤ)) ∅ 2 =
      .found [(0, 0, 0), (0, 1, 0)] := by decide
  refine ⟨?_, ?_, ?_⟩
  · rw [generate_safe_path, hvA, hvB, hrun]
    rfl
  · intro h
    have := congrArg (fun q : Q3 => q.2.1) h
    norm_num [safeTarget] at this
  · intro h
    have := congrArg (fun q : Q3 => q.2.1) h
    norm_num [safeTarget] at this

/-- C6 amended: every successful SafeRoute call orients frame `i` toward
the point `(0, yᵢ, 0)` where `yᵢ` is the height of that frame's own
camera position — the x/z components of the target are pinned to zero but
the y component follows the waypoint, so the target is not one fixed
reference point. -/
theorem safe_route_targets (start_pos end_pos : Q3) (occ : Finset Coord)
    (vs : ℚ) (fov : ℝ) (fuel : ℕ) (fs : List Frame)
    (h : generate_safe_path start_pos end_pos occ vs fov fuel = some fs) :
    ∃ p, astar (pyVox start_pos vs) (pyVox end_pos vs) occ fuel = .found p ∧
      fs = p.map (fun v =>
        (look_at_three (toVec3 (safeCam vs v)) (toVec3 (safeTarget vs v)), fov)) ∧
      ∀ v ∈ p, (safeTarget vs v).1 = 0 ∧ (safeTarget vs v).2.2 = 0 ∧
        (safeTarget vs v).2.1 = (safeCam vs v).2.1 := by
  rw [generate_safe_path] at h
  rcases hr : astar (pyVox start_pos vs) (pyVox end_pos vs) occ fuel with _ | _ | _ | p
  · rw [hr] at h; exact Option.noConfusion h
  · rw [hr] at h; exact Option.noConfusion h
  · rw [hr] at h; exact Option.noConfusion h
  · rw [hr] at h
    refine ⟨p, rfl, (Option.some.injEq _ _ ▸ h).symm, fun v _ => ⟨rfl, rfl, rfl⟩⟩

/-- Witness for `safe_route_targets`, rerunning the two-waypoint route. -/
theorem safe_route_targets_witness :
    (generate_safe_path ((0:ℚ), (0:ℚ), (0:ℚ)) ((0:ℚ), (1:ℚ), (0:ℚ)) ∅ 1 60 2 =
      some [(look_at_three (toVec3 (safeCam 1 (0, 0, 0)))
               (toVec3 (safeTarget 1 (0, 0, 0))), 60),
            (look_at_three (toVec3 (safeCam 1 (0, 1, 0)))
               (toVec3 (safeTarget 1 (0, 1, 0))), 60)]) ∧
    (∃ p, astar (pyVox ((0:ℚ), (0:ℚ), (0:ℚ)) 1) (pyVox ((0:ℚ), (1:ℚ), (0:ℚ)) 1) ∅ 2 =
        .found p ∧
      [(look_at_three (toVec3 (safeCam 1 (0, 0, 0)))
          (toVec3 (safeTarget 1 (0, 0, 0))), (60:ℝ)),
       (look_at_three (toVec3 (safeCam 1 (0, 1, 0)))
          (toVec3 (safeTarget 1 (0, 1, 0))), (60:ℝ))] = p.map (fun v =>
        (look_at_three (toVec3 (safeCam 1 v)) (toVec3 (safeTarget 1 v)), (60:ℝ))) ∧
      ∀ v ∈ p, (safeTarget 1 v).1 = 0 ∧ (safeTarget 1 v).2.2 = 0 ∧
        (safeTarget 1 v).2.1 = (safeCam 1 v).2.1) := by
  have hvA : pyVox ((0:ℚ), (0:ℚ), (0:ℚ)) 1 = ((0:ℤ), (0:ℤ), (0:ℤ)) := by
    norm_num [pyVox, pyInt]
  have hvB : pyVox ((0:ℚ), (1:ℚ), (0:ℚ)) 1 = ((0:ℤ), (1:ℤ), (0:ℤ)) := by
    norm_num [pyVox, pyInt]
  have hrun : astar ((0:ℤ), (0:ℤ), (0:ℤ)) ((0:ℤ), (1:ℤ), (0:ℤ)) ∅ 2 =
      .found [(0, 0, 0), (0, 1, 0)] := by decide
  have h : generate_safe_path ((0:ℚ), (0:ℚ), (0:ℚ)) ((0:ℚ), (1:ℚ), (0:ℚ)) ∅ 1 60 2 =
      some [(look_at_three (toVec3 (safeCam 1 (0, 0, 0)))
               (toVec3 (safeTarget 1 (0, 0, 0))), 60),
            (look_at_three (toVec3 (safeCam 1 (0, 1, 0)))
               (toVec3 (safeTarget 1 (0, 1, 0))), 60)] := by
    rw [generate_safe_path, hvA, hvB, hrun]
    rfl
  exact ⟨h, safe_route_targets _ _ _ _ _ _ _ h⟩

/-- Witness for `compute_bounds_spec` on the cloud `[(1,5,0), (2,3,0)]`. -/
theorem compute_bounds_spec_witness :
    (([(1:ℚ), 2]).length = ([(5:ℚ), 3]).length ∧
     ([(1:ℚ), 2]).length = ([(0:ℚ), 0]).length) ∧
    (([(1:ℚ), 2] = ([] : List ℚ) → compute_bounds [1, 2] [5, 3] [0, 0] = none) ∧
     ([(1:ℚ), 2] ≠ ([] : List ℚ) → ∃ bmin bmax c s,
        compute_bounds [1, 2] [5, 3] [0, 0] = some (bmin, bmax, c, s) ∧
        qle3 bmin bmax ∧
        c.1 = (bmin.1 + bmax.1) / 2 ∧ c.2.1 = (bmin.2.1 + bmax.2.1) / 2 ∧
        c.2.2 = (bmin.2.2 + bmax.2.2) / 2)) :=
  ⟨⟨rfl, rfl⟩, compute_bounds_spec [1, 2] [5, 3] [0, 0] rfl rfl⟩

/-! ## Basic facts about the search primitives -/

theorem lookupA_cons {β : Type} (k : Coord) (v : β) (l : List (Coord × β)) (x : Coord) :
    lookupA ((k, v) :: l) x = if k = x then some v else lookupA l x := rfl

/-- The chosen better entry is one of the two compared entries. -/
theorem better_eq_or (tb : Entry → Entry → Bool) (a b : Entry) :
    better tb a b = a ∨ better tb a b = b := by
  unfold better
  split_ifs <;> simp

/-- The chosen better entry's priority is at most the left one's. -/
theorem better_le_left (tb : Entry → Entry → Bool) (a b : Entry) :
    (better tb a b).1 ≤ a.1 := by
  unfold better
  split_ifs <;> omega

/-- The chosen better entry's priority is at most the right one's. -/
theorem better_le_right (tb : Entry → Entry → Bool) (a b : Entry) :
    (better tb a b).1 ≤ b.1 := by
  unfold better
  split_ifs <;> omega

/-- The popped entry is an element of the heap. -/
theorem selMin_mem (tb : Entry → Entry → Bool) (l : List Entry) :
    ∀ e : Entry, selMin tb e l ∈ e :: l := by
  induction l with
  | nil => intro e; simp [selMin]
  | cons b r ih =>
    intro e
    have h := ih (better tb e b)
    have hstep : selMin tb e (b :: r) = selMin tb (better tb e b) r := rfl
    rw [hstep]
    rcases List.mem_cons.mp h with h1 | h1
    · rcases better_eq_or tb e b with hb | hb
      · rw [h1, hb]
        exact List.mem_cons_self _ _
      · rw [h1, hb]
        exact List.mem_cons_of_mem _ (List.mem_cons_self _ _)
    · exact List.mem_cons_of_mem _ (List.mem_cons_of_mem _ h1)

/-- The popped entry has minimal priority in the heap. -/
theorem selMin_le (tb : Entry → Entry → Bool) (l : List Entry) :
    ∀ e : Entry, ∀ x ∈ e :: l, (selMin tb e l).1 ≤ x.1 := by
  induction l with
  | nil =>
    intro e x hx
    rcases List.mem_cons.mp hx with heq | h
    · rw [heq]
      exact le_refl _
    · exact absurd h (List.not_mem_nil x)
  | cons b r ih =>
    intro e x hx
    have hsel : selMin tb e (b :: r) = selMin tb (better tb e b) r := rfl
    rw [hsel]
    rcases List.mem_cons.mp hx with heq | hx1
    · calc (selMin tb (better tb e b) r).1
          ≤ (better tb e b).1 := ih (better tb e b) _ (List.mem_cons_self _ _)
        _ ≤ e.1 := better_le_left tb e b
        _ = x.1 := by rw [heq]
    · rcases List.mem_cons.mp hx1 with heq | hx2
      · calc (selMin tb (better tb e b) r).1
            ≤ (better tb e b).1 := ih (better tb e b) _ (List.mem_cons_self _ _)
          _ ≤ b.1 := better_le_right tb e b
          _ = x.1 := by rw [heq]
      · exact ih (better tb e b) x (List.mem_cons_of_mem _ hx2)

/-- Erasing keeps only elements of the original heap. -/
theorem mem_of_mem_eraseE (l : List Entry) (a x : Entry) :
    x ∈ eraseE l a → x ∈ l := by
  induction l with
  | nil => intro h; exact absurd h (List.not_mem_nil x)
  | cons y r ih =>
    intro h
    unfold eraseE at h
    by_cases hy : y = a
    · rw [if_pos hy] at h
      exact List.mem_cons_of_mem _ h
    · rw [if_neg hy] at h
      rcases List.mem_cons.mp h with rfl | h1
      · exact List.mem_cons_self _ _
      · exact List.mem_cons_of_mem _ (ih h1)

/-- Entries different from the erased one survive the erasure. -/
theorem mem_eraseE_of_ne (l : List Entry) (a x : Entry) (hx : x ∈ l)
    (hne : x ≠ a) : x ∈ eraseE l a := by
  induction l with
  | nil => exact absurd hx (List.not_mem_nil x)
  | cons y r ih =>
    unfold eraseE
    by_cases hy : y = a
    · rw [if_pos hy]
      rcases List.mem_cons.mp hx with rfl | h1
      · exact absurd hy hne
      · exact h1
    · rw [if_neg hy]
      rcases List.mem_cons.mp hx with rfl | h1
      · exact List.mem_cons_self _ _
      · exact List.mem_cons_of_mem _ (ih h1)

/-- Erasing a present entry shortens the heap by exactly one. -/
theorem eraseE_length (l : List Entry) (a : Entry) (ha : a ∈ l) :
    (eraseE l a).length + 1 = l.length := by
  induction l with
  | nil => exact absurd ha (List.not_mem_nil a)
  | cons y r ih =>
    unfold eraseE
    by_cases hy : y = a
    · rw [if_pos hy]
      simp
    · rw [if_neg hy]
      rcases List.mem_cons.mp ha with rfl | h1
      · exact absurd rfl hy
      · simp only [List.length_cons]
        rw [← ih h1]

/-! ## Steps and the Manhattan heuristic -/

/-- Adding one of the six moves is one 6-connected step. -/
theorem step_of_move (a : Coord) (d : Coord) (hd : d ∈ moves) :
    Step a (addC a d) := by
  obtain ⟨a1, a2, a3⟩ := a
  simp only [moves, List.mem_cons, List.not_mem_nil, or_false] at hd
  rcases hd with rfl | rfl | rfl | rfl | rfl | rfl <;>
    (simp only [Step, hDist, addC]; omega)

/-- One 6-connected step is the addition of one of the six moves. -/
theorem step_iff_move (a b : Coord) :
    Step a b ↔ ∃ d ∈ moves, b = addC a d := by
  constructor
  · obtain ⟨a1, a2, a3⟩ := a
    obtain ⟨b1, b2, b3⟩ := b
    intro h
    unfold Step hDist at h
    simp only [] at h
    have hc : ((a1 - b1).natAbs = 1 ∧ (a2 - b2).natAbs = 0 ∧ (a3 - b3).natAbs = 0) ∨
        ((a1 - b1).natAbs = 0 ∧ (a2 - b2).natAbs = 1 ∧ (a3 - b3).natAbs = 0) ∨
        ((a1 - b1).natAbs = 0 ∧ (a2 - b2).natAbs = 0 ∧ (a3 - b3).natAbs = 1) := by
      omega
    rcases hc with ⟨hx, hy, hz⟩ | ⟨hx, hy, hz⟩ | ⟨hx, hy, hz⟩
    · have hy' : b2 = a2 := by omega
      have hz' : b3 = a3 := by omega
      have h1 : b1 = a1 + 1 ∨ b1 = a1 - 1 := by omega
      rcases h1 with h1 | h1
      · exact ⟨(1,0,0), by norm_num [moves], by simp [addC, Prod.ext_iff]; omega⟩
      · exact ⟨(-1,0,0), by norm_num [moves], by simp [addC, Prod.ext_iff]; omega⟩
    · have hx' : b1 = a1 := by omega
      have hz' : b3 = a3 := by omega
      have h1 : b2 = a2 + 1 ∨ b2 = a2 - 1 := by omega
      rcases h1 with h1 | h1
      · exact ⟨(0,1,0), by norm_num [moves], by simp [addC, Prod.ext_iff]; omega⟩
      · exact ⟨(0,-1,0), by norm_num [moves], by simp [addC, Prod.ext_iff]; omega⟩
    · have hx' : b1 = a1 := by omega
      have hy' : b2 = a2 := by omega
      have h1 : b3 = a3 + 1 ∨ b3 = a3 - 1 := by omega
      rcases h1 with h1 | h1
      · exact ⟨(0,0,1), by norm_num [moves], by simp [addC, Prod.ext_iff]; omega⟩
      · exact ⟨(0,0,-1), by norm_num [moves], by simp [addC, Prod.ext_iff]; omega⟩
  · rintro ⟨d, hd, rfl⟩
    exact step_of_move a d hd

/-- The heuristic is symmetric. -/
theorem hDist_comm (a b : Coord) : hDist a b = hDist b a := by
  unfold hDist; omega

/-- The heuristic satisfies the triangle inequality. -/
theorem hDist_triangle (a b c : Coord) : hDist a c ≤ hDist a b + hDist b c := by
  unfold hDist; omega

/-- A step moves the heuristic by at most one. -/
theorem hDist_step_le {a b : Coord} (h : Step a b) (c : Coord) :
    hDist b c ≤ hDist a c + 1 := by
  have := hDist_triangle b a c
  rw [hDist_comm b a] at this
  unfold Step at h
  omega

/-- A step separates distinct coordinates. -/
theorem step_ne {a b : Coord} (h : Step a b) : a ≠ b := by
  intro he
  subst he
  unfold Step hDist at h
  omega

/-- Nodes within heuristic radius `r` of the goal lie in the box. -/
theorem mem_box_of_hDist {goal : Coord} {r : ℕ} {x : Coord}
    (h : hDist x goal ≤ r) : x ∈ box goal r := by
  obtain ⟨x1, x2, x3⟩ := x
  obtain ⟨g1, g2, g3⟩ := goal
  simp only [hDist] at h
  simp only [box, Finset.mem_product, Finset.mem_Icc]
  omega

/-- The heuristic vanishes on the diagonal. -/
theorem hDist_self (a : Coord) : hDist a a = 0 := by
  unfold hDist; omega

/-! ## Relaxation analysis -/

/-- A relaxation does one of three things: skips an occupied neighbour,
skips a neighbour whose recorded cost is already good enough, or pushes
the neighbour with the improved cost. -/
theorem relax_cases (goal : Coord) (occ : Finset Coord) (cur : Coord)
    (gcur : ℕ) (st : AState) (d : Coord) :
    (addC cur d ∈ occ ∧ relax goal occ cur gcur st d = st) ∨
    (addC cur d ∉ occ ∧
      (∃ gv, lookupA st.gm (addC cur d) = some gv ∧ gv ≤ gcur + 1) ∧
      relax goal occ cur gcur st d = st) ∨
    (addC cur d ∉ occ ∧
      (lookupA st.gm (addC cur d) = none ∨
        ∃ gv, lookupA st.gm (addC cur d) = some gv ∧ gcur + 1 < gv) ∧
      relax goal occ cur gcur st d = pushState goal cur gcur st (addC cur d)) := by
  unfold relax
  by_cases ho : addC cur d ∈ occ
  · left
    rw [if_pos ho]
    exact ⟨ho, rfl⟩
  · rw [if_neg ho]
    rcases hl : lookupA st.gm (addC cur d) with _ | gv
    · exact Or.inr (Or.inr ⟨ho, Or.inl rfl, rfl⟩)
    · by_cases hlt : gcur + 1 < gv
      · refine Or.inr (Or.inr ⟨ho, Or.inr ⟨gv, rfl, hlt⟩, ?_⟩)
        simp only [decide_eq_true hlt, if_true]
        rfl
      · refine Or.inr (Or.inl ⟨ho, ⟨gv, rfl, by omega⟩, ?_⟩)
        simp only [decide_eq_false hlt, Bool.false_eq_true, if_false]

/-- A pushed node is never the start node. -/
theorem push_ne_start {start goal : Coord} {occ : Finset Coord} {st : AState}
    {nxt : Coord} {gcur : ℕ} (hB : InvBase start goal occ st)
    (hcond : lookupA st.gm nxt = none ∨
      ∃ gv, lookupA st.gm nxt = some gv ∧ gcur + 1 < gv) :
    nxt ≠ start := by
  intro he
  rcases hcond with hn | ⟨gv, hgv, hlt⟩
  · rw [he, hB.gstart] at hn
    exact Option.noConfusion hn
  · rw [he, hB.gstart] at hgv
    have := Option.some_inj.mp hgv
    omega

/-- A push preserves the bookkeeping invariants. -/
theorem push_invbase {start goal : Coord} {occ : Finset Coord} {st : AState}
    {cur nxt : Coord} {gcur : ℕ}
    (hB : InvBase start goal occ st)
    (hcur : lookupA st.gm cur = some gcur)
    (hocc : nxt ∉ occ)
    (hstep : Step cur nxt)
    (hcond : lookupA st.gm nxt = none ∨
      ∃ gv, lookupA st.gm nxt = some gv ∧ gcur + 1 < gv) :
    InvBase start goal occ (pushState goal cur gcur st nxt) := by
  have hnstart : nxt ≠ start := push_ne_start hB hcond
  have hncur : cur ≠ nxt := step_ne hstep
  constructor
  · show lookupA ((nxt, gcur + 1) :: st.gm) start = some 0
    rw [lookupA_cons, if_neg hnstart]
    exact hB.gstart
  · show lookupA ((nxt, some cur) :: st.came) start = some none
    rw [lookupA_cons, if_neg hnstart]
    exact hB.cstart
  · intro pri x hmem
    rcases List.mem_cons.mp hmem with heq | hold
    · have hx : x = nxt := congrArg Prod.snd heq
      have hpri : pri = gcur + 1 + hDist nxt goal := congrArg Prod.fst heq
      refine ⟨gcur + 1, ?_, Or.inl ?_⟩
      · show lookupA ((nxt, gcur + 1) :: st.gm) x = some (gcur + 1)
        rw [lookupA_cons, if_pos hx.symm]
      · rw [hpri, hx]
    · obtain ⟨gv, hgv, hdisj⟩ := hB.openg pri x hold
      by_cases hx : x = nxt
      · refine ⟨gcur + 1, ?_, ?_⟩
        · show lookupA ((nxt, gcur + 1) :: st.gm) x = some (gcur + 1)
          rw [lookupA_cons, if_pos hx.symm]
        · rcases hdisj with hle | ⟨hs, _⟩
          · left
            rcases hcond with hn | ⟨gv2, hgv2, hlt⟩
            · rw [← hx, hgv] at hn
              exact Option.noConfusion hn
            · rw [← hx, hgv] at hgv2
              have := Option.some_inj.mp hgv2
              omega
          · exact absurd (hx ▸ hs : nxt = start) hnstart
      · refine ⟨gv, ?_, hdisj⟩
        show lookupA ((nxt, gcur + 1) :: st.gm) x = some gv
        rw [lookupA_cons, if_neg (fun he => hx he.symm)]
        exact hgv
  · intro x p hc
    rw [show (pushState goal cur gcur st nxt).came = (nxt, some cur) :: st.came from rfl,
      lookupA_cons] at hc
    by_cases hx : nxt = x
    · rw [if_pos hx] at hc
      have hp : p = cur := (Option.some_inj.mp (Option.some_inj.mp hc)).symm
      refine ⟨hx ▸ hocc, ?_, gcur + 1, gcur, ?_, ?_, by omega⟩
      · rw [hp, ← hx]
        exact hstep
      · show lookupA ((nxt, gcur + 1) :: st.gm) x = some (gcur + 1)
        rw [lookupA_cons, if_pos hx]
      · show lookupA ((nxt, gcur + 1) :: st.gm) p = some gcur
        rw [lookupA_cons, if_neg ?_, hp]
        · exact hcur
        · intro he
          rw [hp] at he
          exact hncur he.symm
    · rw [if_neg hx] at hc
      obtain ⟨hxo, hst, gx, gp, hgx, hgp, hlt⟩ := hB.camev x p hc
      refine ⟨hxo, hst, gx, ?_⟩
      by_cases hp : p = nxt
      · refine ⟨gcur + 1, ?_, ?_, ?_⟩
        · show lookupA ((nxt, gcur + 1) :: st.gm) x = some gx
          rw [lookupA_cons, if_neg hx]
          exact hgx
        · show lookupA ((nxt, gcur + 1) :: st.gm) p = some (gcur + 1)
          rw [lookupA_cons, if_pos hp.symm]
        · rcases hcond with hn | ⟨gv2, hgv2, hlt2⟩
          · rw [← hp, hgp] at hn
            exact Option.noConfusion hn
          · rw [← hp, hgp] at hgv2
            have := Option.some_inj.mp hgv2
            omega
      · refine ⟨gp, ?_, ?_, hlt⟩
        · show lookupA ((nxt, gcur + 1) :: st.gm) x = some gx
          rw [lookupA_cons, if_neg hx]
          exact hgx
        · show lookupA ((nxt, gcur + 1) :: st.gm) p = some gp
          rw [lookupA_cons, if_neg (fun he => hp he.symm)]
          exact hgp
  · intro x hc
    rw [show (pushState goal cur gcur st nxt).came = (nxt, some cur) :: st.came from rfl,
      lookupA_cons] at hc
    by_cases hx : nxt = x
    · rw [if_pos hx] at hc
      exact Option.noConfusion (Option.some_inj.mp hc)
    · rw [if_neg hx] at hc
      exact hB.camen x hc
  · intro x gx hg
    rw [show (pushState goal cur gcur st nxt).gm = (nxt, gcur + 1) :: st.gm from rfl,
      lookupA_cons] at hg
    have hlen : (pushState goal cur gcur st nxt).came.length = st.came.length + 1 := rfl
    by_cases hx : nxt = x
    · rw [if_pos hx] at hg
      have hgx : gcur + 1 = gx := Option.some_inj.mp hg
      have hcb := (hB.gkeys cur gcur hcur).2
      refine ⟨⟨some cur, ?_⟩, by omega⟩
      show lookupA ((nxt, some cur) :: st.came) x = some (some cur)
      rw [lookupA_cons, if_pos hx]
    · rw [if_neg hx] at hg
      obtain ⟨⟨o, ho⟩, hlt⟩ := hB.gkeys x gx hg
      refine ⟨⟨o, ?_⟩, by omega⟩
      show lookupA ((nxt, some cur) :: st.came) x = some o
      rw [lookupA_cons, if_neg hx]
      exact ho
  · intro gg hg
    rw [show (pushState goal cur gcur st nxt).gm = (nxt, gcur + 1) :: st.gm from rfl,
      lookupA_cons] at hg
    by_cases hx : nxt = goal
    · rw [if_pos hx] at hg
      have hgg : gcur + 1 = gg := Option.some_inj.mp hg
      refine ⟨gcur + 1 + hDist nxt goal, ?_, ?_⟩
      · show (gcur + 1 + hDist nxt goal, goal) ∈
          (gcur + 1 + hDist nxt goal, nxt) :: st.openL
        rw [← hx]
        exact List.mem_cons_self _ _
      · rw [← hx, hDist_self]
        omega
    · rw [if_neg hx] at hg
      obtain ⟨pri, hmem, hle⟩ := hB.goalopen gg hg
      exact ⟨pri, List.mem_cons_of_mem _ hmem, hle⟩

/-- A push establishes the frontier property at the pushed node. -/
theorem push_goodAt_self {goal : Coord} {occ : Finset Coord} {st : AState}
    {cur nxt : Coord} {gcur : ℕ} :
    GoodAt goal occ (pushState goal cur gcur st nxt) nxt := by
  intro gx hg
  rw [show (pushState goal cur gcur st nxt).gm = (nxt, gcur + 1) :: st.gm from rfl,
    lookupA_cons, if_pos rfl] at hg
  have : gcur + 1 = gx := Option.some_inj.mp hg
  left
  exact ⟨gcur + 1 + hDist nxt goal, List.mem_cons_self _ _, by omega⟩

/-- A push preserves the frontier property at every other node. -/
theorem push_goodAt_ne {goal : Coord} {occ : Finset Coord} {st : AState}
    {cur nxt : Coord} {gcur : ℕ} (x : Coord) (hx : x ≠ nxt)
    (hG : GoodAt goal occ st x)
    (hcond : lookupA st.gm nxt = none ∨
      ∃ gv, lookupA st.gm nxt = some gv ∧ gcur + 1 < gv) :
    GoodAt goal occ (pushState goal cur gcur st nxt) x := by
  intro gx hg
  rw [show (pushState goal cur gcur st nxt).gm = (nxt, gcur + 1) :: st.gm from rfl,
    lookupA_cons, if_neg (fun he => hx he.symm)] at hg
  rcases hG gx hg with ⟨pri, hmem, hle⟩ | hclose
  · exact Or.inl ⟨pri, List.mem_cons_of_mem _ hmem, hle⟩
  · right
    intro d hd hfree
    obtain ⟨gy, hgy, hley⟩ := hclose d hd hfree
    by_cases hy : addC x d = nxt
    · refine ⟨gcur + 1, ?_, ?_⟩
      · show lookupA ((nxt, gcur + 1) :: st.gm) (addC x d) = some (gcur + 1)
        rw [lookupA_cons, if_pos hy.symm]
      · rcases hcond with hn | ⟨gv', hgv', hlt'⟩
        · rw [← hy, hgy] at hn
          exact Option.noConfusion hn
        · rw [← hy, hgy] at hgv'
          have := Option.some_inj.mp hgv'
          omega
    · refine ⟨gy, ?_, hley⟩
      show lookupA ((nxt, gcur + 1) :: st.gm) (addC x d) = some gy
      rw [lookupA_cons, if_neg (fun he => hy he.symm)]
      exact hgy

/-- Recorded costs never increase under a relaxation. -/
theorem relax_gm_mono (goal : Coord) (occ : Finset Coord) (cur : Coord)
    (gcur : ℕ) (st : AState) (d : Coord) :
    ∀ x v, lookupA st.gm x = some v →
      ∃ w, lookupA (relax goal occ cur gcur st d).gm x = some w ∧ w ≤ v := by
  intro x v hv
  rcases relax_cases goal occ cur gcur st d with ⟨_, he⟩ | ⟨_, _, he⟩ | ⟨ho, hcond, he⟩
  · rw [he]
    exact ⟨v, hv, le_refl v⟩
  · rw [he]
    exact ⟨v, hv, le_refl v⟩
  · rw [he]
    by_cases hx : addC cur d = x
    · refine ⟨gcur + 1, ?_, ?_⟩
      · show lookupA ((addC cur d, gcur + 1) :: st.gm) x = some (gcur + 1)
        rw [lookupA_cons, if_pos hx]
      · rcases hcond with hn | ⟨gv, hgv, hlt⟩
        · rw [hx, hv] at hn
          exact Option.noConfusion hn
        · rw [hx, hv] at hgv
          have := Option.some_inj.mp hgv
          omega
    · refine ⟨v, ?_, le_refl v⟩
      show lookupA ((addC cur d, gcur + 1) :: st.gm) x = some v
      rw [lookupA_cons, if_neg hx]
      exact hv

/-- After relaxing direction `d`, that direction is closed. -/
theorem relax_closedAt_self (goal : Coord) (occ : Finset Coord) (cur : Coord)
    (gcur : ℕ) (st : AState) (d : Coord) :
    ClosedAt occ (relax goal occ cur gcur st d) cur gcur d := by
  intro hfree
  rcases relax_cases goal occ cur gcur st d with ⟨ho, _⟩ | ⟨_, ⟨gv, hgv, hle⟩, he⟩ |
    ⟨_, _, he⟩
  · exact absurd ho hfree
  · rw [he]
    exact ⟨gv, hgv, hle⟩
  · rw [he]
    refine ⟨gcur + 1, ?_, le_refl _⟩
    show lookupA ((addC cur d, gcur + 1) :: st.gm) (addC cur d) = some (gcur + 1)
    rw [lookupA_cons, if_pos rfl]

/-- Closedness survives any cost-nonincreasing transformation of `g`. -/
theorem closedAt_mono {occ : Finset Coord} {st st' : AState} {cur : Coord}
    {gcur : ℕ} {d : Coord}
    (hmono : ∀ x v, lookupA st.gm x = some v →
      ∃ w, lookupA st'.gm x = some w ∧ w ≤ v)
    (h : ClosedAt occ st cur gcur d) : ClosedAt occ st' cur gcur d := by
  intro hfree
  obtain ⟨gy, hgy, hle⟩ := h hfree
  obtain ⟨w, hw, hwle⟩ := hmono _ _ hgy
  exact ⟨w, hw, by omega⟩

/-- A relaxation never touches the recorded cost of the expanded node. -/
theorem relax_lookup_cur {goal : Coord} {occ : Finset Coord} {cur : Coord}
    {gcur : ℕ} {st : AState} {d : Coord} (hd : d ∈ moves)
    (hcur : lookupA st.gm cur = some gcur) :
    lookupA (relax goal occ cur gcur st d).gm cur = some gcur := by
  have hne : addC cur d ≠ cur := fun he => step_ne (step_of_move cur d hd) he.symm
  rcases relax_cases goal occ cur gcur st d with ⟨_, he⟩ | ⟨_, _, he⟩ | ⟨_, _, he⟩
  · rw [he]
    exact hcur
  · rw [he]
    exact hcur
  · rw [he]
    show lookupA ((addC cur d, gcur + 1) :: st.gm) cur = some gcur
    rw [lookupA_cons, if_neg hne]
    exact hcur

/-- A relaxation preserves the frontier property pointwise. -/
theorem relax_goodAt {goal : Coord} {occ : Finset Coord} {cur : Coord}
    {gcur : ℕ} {st : AState} {d : Coord} (x : Coord)
    (hG : GoodAt goal occ st x) :
    GoodAt goal occ (relax goal occ cur gcur st d) x := by
  rcases relax_cases goal occ cur gcur st d with ⟨_, he⟩ | ⟨_, _, he⟩ | ⟨_, hcond, he⟩
  · rw [he]
    exact hG
  · rw [he]
    exact hG
  · rw [he]
    by_cases hx : x = addC cur d
    · rw [hx]
      exact push_goodAt_self
    · exact push_goodAt_ne x hx hG hcond

/-- A relaxation preserves the bookkeeping invariants. -/
theorem relax_invbase {start goal : Coord} {occ : Finset Coord} {cur : Coord}
    {gcur : ℕ} {st : AState} {d : Coord} (hd : d ∈ moves)
    (hB : InvBase start goal occ st)
    (hcur : lookupA st.gm cur = some gcur) :
    InvBase start goal occ (relax goal occ cur gcur st d) := by
  rcases relax_cases goal occ cur gcur st d with ⟨_, he⟩ | ⟨_, _, he⟩ | ⟨ho, hcond, he⟩
  · rw [he]
    exact hB
  · rw [he]
    exact hB
  · rw [he]
    exact push_invbase hB hcur ho (step_of_move cur d hd) hcond

/-- The expansion fold: relaxing a suffix of the moves preserves the
bookkeeping invariants, the expanded node's cost, and the frontier
property away from the expanded node, and closes every direction. -/
theorem expand_fold {start goal : Coord} {occ : Finset Coord} {cur : Coord}
    {gcur : ℕ} :
    ∀ (ds : List Coord), (∀ d ∈ ds, d ∈ moves) →
    ∀ st : AState, InvBase start goal occ st →
      lookupA st.gm cur = some gcur →
      (∀ x, x ≠ cur → GoodAt goal occ st x) →
      (∀ d ∈ moves, ClosedAt occ st cur gcur d ∨ d ∈ ds) →
      InvBase start goal occ (ds.foldl (relax goal occ cur gcur) st) ∧
      lookupA (ds.foldl (relax goal occ cur gcur) st).gm cur = some gcur ∧
      (∀ x, x ≠ cur → GoodAt goal occ (ds.foldl (relax goal occ cur gcur) st) x) ∧
      (∀ d ∈ moves, ClosedAt occ (ds.foldl (relax goal occ cur gcur) st) cur gcur d) := by
  intro ds
  induction ds with
  | nil =>
    intro _ st hB hcur hG hcl
    refine ⟨hB, hcur, hG, ?_⟩
    intro d hd
    rcases hcl d hd with h | h
    · exact h
    · exact absurd h (List.not_mem_nil d)
  | cons d0 rest ih =>
    intro hsub st hB hcur hG hcl
    have hd0 : d0 ∈ moves := hsub d0 (List.mem_cons_self _ _)
    have hB2 := relax_invbase hd0 hB hcur
    have hcur2 : lookupA (relax goal occ cur gcur st d0).gm cur = some gcur :=
      relax_lookup_cur hd0 hcur
    have hG2 : ∀ x, x ≠ cur → GoodAt goal occ (relax goal occ cur gcur st d0) x :=
      fun x hx => relax_goodAt x (hG x hx)
    have hcl2 : ∀ d ∈ moves,
        ClosedAt occ (relax goal occ cur gcur st d0) cur gcur d ∨ d ∈ rest := by
      intro d hd
      rcases hcl d hd with h | h
      · exact Or.inl (closedAt_mono (relax_gm_mono goal occ cur gcur st d0) h)
      · rcases List.mem_cons.mp h with he | hr
        · left
          rw [he]
          exact relax_closedAt_self goal occ cur gcur st d0
        · exact Or.inr hr
    exact ih (fun d hd => hsub d (List.mem_cons_of_mem _ hd)) _ hB2 hcur2 hG2 hcl2

/-- Removing a non-goal entry keeps the bookkeeping invariants. -/
theorem invbase_erase {start goal : Coord} {occ : Finset Coord} {st : AState}
    (m : Entry) (hB : InvBase start goal occ st) (hgoal : m.2 ≠ goal) :
    InvBase start goal occ { st with openL := eraseE st.openL m } := by
  constructor
  · exact hB.gstart
  · exact hB.cstart
  · intro pri x hmem
    exact hB.openg pri x (mem_of_mem_eraseE _ _ _ hmem)
  · exact hB.camev
  · exact hB.camen
  · exact hB.gkeys
  · intro gg hg
    obtain ⟨pri, hmem, hle⟩ := hB.goalopen gg hg
    refine ⟨pri, ?_, hle⟩
    exact mem_eraseE_of_ne _ _ _ hmem
      (fun he => hgoal ((congrArg Prod.snd he).symm ▸ rfl))

/-- Removing an entry keeps the frontier property of other nodes. -/
theorem goodAt_erase {goal : Coord} {occ : Finset Coord} {st : AState}
    (m : Entry) (x : Coord) (hx : x ≠ m.2) (hG : GoodAt goal occ st x) :
    GoodAt goal occ { st with openL := eraseE st.openL m } x := by
  intro gx hgx
  rcases hG gx hgx with ⟨pri, hmem, hle⟩ | hclose
  · left
    refine ⟨pri, ?_, hle⟩
    exact mem_eraseE_of_ne _ _ _ hmem (fun he => hx (congrArg Prod.snd he))
  · exact Or.inr hclose

/-- One full loop iteration — popping a non-goal entry and expanding it —
preserves the invariant. -/
theorem step_inv {start goal : Coord} {occ : Finset Coord} {st : AState}
    (m : Entry) (hI : Inv start goal occ st) (hm : m ∈ st.openL)
    (hgoal : m.2 ≠ goal) :
    ∃ gcur, lookupA st.gm m.2 = some gcur ∧
      Inv start goal occ
        (expand goal occ m.2 gcur { st with openL := eraseE st.openL m }) := by
  obtain ⟨hB, hG⟩ := hI
  obtain ⟨gcur, hgcur, _⟩ := hB.openg m.1 m.2 hm
  refine ⟨gcur, hgcur, ?_⟩
  have hBm := invbase_erase m hB hgoal
  have hGm : ∀ x, x ≠ m.2 →
      GoodAt goal occ { st with openL := eraseE st.openL m } x :=
    fun x hx => goodAt_erase m x hx (hG x)
  obtain ⟨hB3, hcur3, hG3, hcl3⟩ := expand_fold moves (fun d hd => hd)
    { st with openL := eraseE st.openL m } hBm hgcur hGm (fun d hd => Or.inr hd)
  show Inv start goal occ
    (moves.foldl (relax goal occ m.2 gcur) { st with openL := eraseE st.openL m })
  refine ⟨hB3, ?_⟩
  intro x
  by_cases hx : x = m.2
  · rw [hx]
    intro gx hgx
    right
    intro d hd hfree
    obtain ⟨gy, hgy, hle⟩ := hcl3 d hd hfree
    have : gx = gcur := by
      rw [hgx] at hcur3
      exact Option.some_inj.mp hcur3
    exact ⟨gy, hgy, by omega⟩
  · exact hG3 x hx

/-! ## Path reconstruction -/

/-- Reconstruction from any recorded node succeeds given enough fuel and
yields a backwards 6-connected chain from that node to the start whose
length is bounded by the recorded cost, avoiding occupied cells except
possibly at the start. -/
theorem rebuild_ok {start goal : Coord} {occ : Finset Coord} {st : AState}
    (hB : InvBase start goal occ st) :
    ∀ n gx : ℕ, ∀ x : Coord, lookupA st.gm x = some gx → gx + 1 ≤ n →
      ∃ l : List Coord, rebuild st.came n x = some l ∧ l ≠ [] ∧
        l.head? = some x ∧ l.getLast? = some start ∧
        List.Chain' (fun a b => Step b a) l ∧
        (∀ y ∈ l, y ≠ start → y ∉ occ) ∧ l.length ≤ gx + 1 := by
  intro n
  induction n with
  | zero =>
    intro gx x _ hn
    omega
  | succ k ih =>
    intro gx x hx hn
    obtain ⟨⟨o, ho⟩, _⟩ := hB.gkeys x gx hx
    rcases o with _ | p
    · have hxs : x = start := hB.camen x ho
      refine ⟨[x], ?_, by simp, rfl, by rw [hxs]; rfl, List.chain'_singleton x, ?_, by simp⟩
      · show rebuild st.came (k + 1) x = some [x]
        unfold rebuild
        rw [ho]
      · intro y hy hne
        rcases List.mem_singleton.mp hy with rfl
        exact absurd hxs hne
    · obtain ⟨hxocc, hstep, gx2, gp, hgx2, hgp, hlt⟩ := hB.camev x p ho
      have hgxx : gx2 = gx := by
        rw [hx] at hgx2
        exact (Option.some_inj.mp hgx2).symm
      obtain ⟨l2, hreb2, hne2, hhead2, hlast2, hchain2, hocc2, hlen2⟩ :=
        ih gp p hgp (by omega)
      obtain ⟨a, t, hat⟩ := List.exists_cons_of_ne_nil hne2
      have hap : a = p := by
        rw [hat] at hhead2
        exact Option.some_inj.mp hhead2
      refine ⟨x :: l2, ?_, by simp, rfl, ?_, ?_, ?_, ?_⟩
      · show rebuild st.came (k + 1) x = some (x :: l2)
        unfold rebuild
        rw [ho]
        show (rebuild st.came k p).map (x :: ·) = some (x :: l2)
        rw [hreb2]
        rfl
      · rw [hat, List.getLast?_cons_cons]
        rw [hat] at hlast2
        exact hlast2
      · rw [hat]
        rw [hat] at hchain2
        exact List.chain'_cons.mpr ⟨hap ▸ hstep, hchain2⟩
      · intro y hy hne
        rcases List.mem_cons.mp hy with rfl | hy2
        · exact hxocc
        · exact hocc2 y hy2 hne
      · simp only [List.length_cons]
        omega

/-- The loop with no fuel is still running. -/
theorem astarLoop_zero (tb : Entry → Entry → Bool) (goal : Coord)
    (occ : Finset Coord) (st : AState) :
    astarLoop tb goal occ 0 st = .running := rfl

/-- The loop on an empty heap reports that no path exists. -/
theorem astarLoop_nil (tb : Entry → Entry → Bool) (goal : Coord)
    (occ : Finset Coord) (n : ℕ) (gm : List (Coord × ℕ))
    (came : List (Coord × Option Coord)) :
    astarLoop tb goal occ (n + 1) ⟨[], gm, came⟩ = .nopath := rfl

/-- One unfolding of the loop on a nonempty heap. -/
theorem astarLoop_cons (tb : Entry → Entry → Bool) (goal : Coord)
    (occ : Finset Coord) (n : ℕ) (e : Entry) (rest : List Entry)
    (gm : List (Coord × ℕ)) (came : List (Coord × Option Coord)) :
    astarLoop tb goal occ (n + 1) ⟨e :: rest, gm, came⟩ =
      (if (selMin tb e rest).2 = goal then
        match rebuild came (came.length + 1) goal with
        | some l => AOut.found l.reverse
        | none => AOut.err
      else
        match lookupA gm (selMin tb e rest).2 with
        | none => AOut.err
        | some gcur => astarLoop tb goal occ n
            (expand goal occ (selMin tb e rest).2 gcur
              ⟨eraseE (e :: rest) (selMin tb e rest), gm, came⟩)) := rfl

/-- If the loop returns a path, that path is a valid route from start to
goal (and is `[start]` whenever `start = goal`). -/
theorem astarLoop_found_valid {start goal : Coord} {occ : Finset Coord}
    (tb : Entry → Entry → Bool) :
    ∀ fuel (st : AState) (p : List Coord), Inv start goal occ st →
      astarLoop tb goal occ fuel st = .found p →
      ValidPath occ start goal p ∧ (start = goal → p = [start]) := by
  intro fuel
  induction fuel with
  | zero =>
    intro st p _ h
    rw [astarLoop_zero] at h
    exact absurd h (by simp)
  | succ n ih =>
    intro st p hI h
    obtain ⟨op, gmS, cameS⟩ := st
    rcases op with _ | ⟨e, rest⟩
    · rw [astarLoop_nil] at h
      exact absurd h (by simp)
    · rw [astarLoop_cons] at h
      by_cases hmg : (selMin tb e rest).2 = goal
      · rw [if_pos hmg] at h
        have hmem : selMin tb e rest ∈
            (AState.mk (e :: rest) gmS cameS).openL :=
          selMin_mem tb rest e
        obtain ⟨gg, hgg, _⟩ := hI.1.openg (selMin tb e rest).1 (selMin tb e rest).2
          (by rw [Prod.mk.eta]; exact hmem)
        rw [hmg] at hgg
        have hfuel : gg + 1 ≤ cameS.length + 1 := by
          have h2 : gg < cameS.length := (hI.1.gkeys goal gg hgg).2
          omega
        obtain ⟨l, hreb, hne, hhead, hlast, hchain, hoccl, hlen⟩ :=
          rebuild_ok hI.1 (cameS.length + 1) gg goal hgg hfuel
        rw [hreb] at h
        have hp : p = l.reverse := (AOut.found.injEq _ _ ▸ h).symm
        subst hp
        refine ⟨⟨?_, ?_, ?_, ?_⟩, ?_⟩
        · rw [List.head?_reverse]
          exact hlast
        · rw [List.getLast?_reverse]
          exact hhead
        · rw [List.chain'_reverse]
          exact hchain
        · intro y hy hys
          exact hoccl y (List.mem_reverse.mp hy) hys
        · intro hsg
          have hreb2 : rebuild cameS (cameS.length + 1) goal = some [goal] := by
            unfold rebuild
            rw [← hsg]
            have : lookupA cameS start = some none := hI.1.cstart
            rw [this]
          rw [hreb2] at hreb
          have : [goal] = l := Option.some_inj.mp hreb
          rw [← this, hsg]
          rfl
      · rw [if_neg hmg] at h
        have hmem : selMin tb e rest ∈
            (AState.mk (e :: rest) gmS cameS).openL :=
          selMin_mem tb rest e
        obtain ⟨gcur, hgcur, hI2⟩ := step_inv (selMin tb e rest) hI hmem hmg
        rw [show lookupA gmS (selMin tb e rest).2 =
          lookupA (AState.mk (e :: rest) gmS cameS).gm (selMin tb e rest).2 from rfl,
          hgcur] at h
        exact ih _ p hI2 h

/-- The initial search state satisfies the invariant. -/
theorem inv_init (start goal : Coord) (occ : Finset Coord) :
    Inv start goal occ (initState start) := by
  constructor
  · constructor
    · show lookupA [(start, 0)] start = some 0
      rw [lookupA_cons, if_pos rfl]
    · show lookupA [(start, none)] start = some none
      rw [lookupA_cons, if_pos rfl]
    · intro pri x hmem
      have he : (pri, x) = ((0 : ℕ), start) := List.mem_singleton.mp hmem
      have hx : x = start := congrArg Prod.snd he
      have hpri : pri = 0 := congrArg Prod.fst he
      refine ⟨0, ?_, Or.inr ⟨hx, hpri⟩⟩
      show lookupA [(start, 0)] x = some 0
      rw [lookupA_cons, if_pos hx.symm]
    · intro x p hc
      rw [show (initState start).came = [(start, none)] from rfl, lookupA_cons] at hc
      by_cases hx : start = x
      · rw [if_pos hx] at hc
        exact Option.noConfusion (Option.some_inj.mp hc)
      · rw [if_neg hx] at hc
        exact Option.noConfusion hc
    · intro x hc
      rw [show (initState start).came = [(start, none)] from rfl, lookupA_cons] at hc
      by_cases hx : start = x
      · exact hx.symm
      · rw [if_neg hx] at hc
        exact Option.noConfusion hc
    · intro x gx hg
      rw [show (initState start).gm = [(start, 0)] from rfl, lookupA_cons] at hg
      by_cases hx : start = x
      · rw [if_pos hx] at hg
        refine ⟨⟨none, ?_⟩, ?_⟩
        · show lookupA [(start, none)] x = some none
          rw [lookupA_cons, if_pos hx]
        · have : (0 : ℕ) = gx := Option.some_inj.mp hg
          show gx < 1
          omega
      · rw [if_neg hx] at hg
        exact Option.noConfusion hg
    · intro gg hg
      rw [show (initState start).gm = [(start, 0)] from rfl, lookupA_cons] at hg
      by_cases hx : start = goal
      · rw [if_pos hx] at hg
        have : (0 : ℕ) = gg := Option.some_inj.mp hg
        refine ⟨0, ?_, by omega⟩
        rw [← hx]
        exact List.mem_singleton.mpr rfl
      · rw [if_neg hx] at hg
        exact Option.noConfusion hg
  · intro x gx hg
    rw [show (initState start).gm = [(start, 0)] from rfl, lookupA_cons] at hg
    by_cases hx : start = x
    · left
      have : (0 : ℕ) = gx := by
        rw [if_pos hx] at hg
        exact Option.some_inj.mp hg
      refine ⟨0, ?_, by omega⟩
      rw [← hx]
      exact List.mem_singleton.mpr rfl
    · rw [if_neg hx] at hg
      exact Option.noConfusion hg

/-! ## C10: structural validity of returned paths -/

/-- C10: whenever `astar` returns a path — under any heap tie-break — its
first element is the start voxel, its last element is the goal voxel, each
consecutive pair differs by exactly one along exactly one axis, no element
other than the start lies in the occupancy set, and for `start = goal` the
result is the single-element path `[start]`. -/
theorem astar_found_valid (tb : Entry → Entry → Bool) (start goal : Coord)
    (occ : Finset Coord) (fuel : ℕ) (p : List Coord)
    (h : astarSearch tb start goal occ fuel = .found p) :
    ValidPath occ start goal p ∧ (start = goal → p = [start]) :=
  astarLoop_found_valid tb fuel (initState start) p (inv_init start goal occ) h

/-- Witness for `astar_found_valid` on a concrete free-grid run. -/
theorem astar_found_valid_witness :
    (astarSearch pyTb (0, 0, 0) (2, 0, 0) ∅ 4 =
      .found [(0, 0, 0), (1, 0, 0), (2, 0, 0)]) ∧
    (ValidPath ∅ (0, 0, 0) (2, 0, 0) [(0, 0, 0), (1, 0, 0), (2, 0, 0)] ∧
      (((0 : ℤ), (0 : ℤ), (0 : ℤ)) = ((2 : ℤ), (0 : ℤ), (0 : ℤ)) →
        [((0 : ℤ), (0 : ℤ), (0 : ℤ)), (1, 0, 0), (2, 0, 0)] = [(0, 0, 0)])) :=
  ⟨by decide, astar_found_valid pyTb (0, 0, 0) (2, 0, 0) ∅ 4
    [(0, 0, 0), (1, 0, 0), (2, 0, 0)] (by decide)⟩

/-! ## C2: the sealed goal makes the search loop forever -/

/-- A recorded key is a key of the association list. -/
theorem lookupA_mem {β : Type} (l : List (Coord × β)) (x : Coord) (v : β)
    (h : lookupA l x = some v) : x ∈ l.map Prod.fst := by
  induction l with
  | nil => exact Option.noConfusion h
  | cons kv r ih =>
    obtain ⟨k, w⟩ := kv
    rw [lookupA_cons] at h
    by_cases hk : k = x
    · rw [← hk]
      exact List.mem_cons_self _ _
    · rw [if_neg hk] at h
      exact List.mem_cons_of_mem _ (ih h)

/-- Every cell adjacent to the origin by one move is occupied in the
sealed configuration — stepping into the origin from a free cell is
impossible. -/
theorem seal_nbr (cur : Coord) (d : Coord) (hd : d ∈ moves)
    (hfree : cur ∉ sealedOcc) (heq : addC cur d = ((0:ℤ), (0:ℤ), (0:ℤ))) :
    False := by
  obtain ⟨c1, c2, c3⟩ := cur
  simp only [moves, List.mem_cons, List.not_mem_nil, or_false] at hd
  apply hfree
  rcases hd with rfl | rfl | rfl | rfl | rfl | rfl <;>
    · simp only [addC, Prod.ext_iff] at heq
      obtain ⟨h1, h2, h3⟩ := heq
      simp only [sealedOcc, Finset.mem_insert, Finset.mem_singleton, Prod.ext_iff]
      omega

/-- Expanding a free cell preserves the sealed-run invariant. -/
theorem seal_expand {cur : Coord} {gcur : ℕ} (hcfree : cur ∉ sealedOcc) :
    ∀ (ds : List Coord), (∀ d ∈ ds, d ∈ moves) → ∀ st : AState, SealInv st →
      SealInv (ds.foldl (relax ((0:ℤ), (0:ℤ), (0:ℤ)) sealedOcc cur gcur) st) := by
  intro ds
  induction ds with
  | nil => intro _ st hS; exact hS
  | cons d0 rest ih =>
    intro hsub st hS
    refine ih (fun d hd => hsub d (List.mem_cons_of_mem _ hd)) _ ?_
    rcases relax_cases ((0:ℤ), (0:ℤ), (0:ℤ)) sealedOcc cur gcur st d0 with
      ⟨_, he⟩ | ⟨_, _, he⟩ | ⟨ho, _, he⟩
    · rw [he]; exact hS
    · rw [he]; exact hS
    · rw [he]
      constructor
      · intro pri x hmem
        rcases List.mem_cons.mp hmem with heq | hold
        · have hx : x = addC cur d0 := congrArg Prod.snd heq
          rw [hx]
          exact ho
        · exact hS.1 pri x hold
      · show lookupA ((addC cur d0, gcur + 1) :: st.gm) ((0:ℤ), (0:ℤ), (0:ℤ)) = none
        rw [lookupA_cons, if_neg ?_]
        · exact hS.2
        · intro he
          exact seal_nbr cur d0 (hsub d0 (List.mem_cons_self _ _)) hcfree he

/-- On the sealed instance a reachable state always has a nonempty heap:
if it were empty, the whole infinite free ray east of the start would have
been recorded in the finite cost dictionary. -/
theorem seal_open_ne_nil {st : AState}
    (hI : Inv ((3:ℤ), (0:ℤ), (0:ℤ)) ((0:ℤ), (0:ℤ), (0:ℤ)) sealedOcc st)
    (_hS : SealInv st) : st.openL ≠ [] := by
  intro hempty
  have ray : ∀ k : ℕ, ∃ v, lookupA st.gm ((3 + k : ℤ), (0:ℤ), (0:ℤ)) = some v := by
    intro k
    induction k with
    | zero => exact ⟨0, hI.1.gstart⟩
    | succ j ihj =>
      obtain ⟨v, hv⟩ := ihj
      rcases hI.2 _ v hv with ⟨pri, hmem, _⟩ | hclose
      · rw [hempty] at hmem
        exact absurd hmem (List.not_mem_nil _)
      · have hd1 : ((1:ℤ), (0:ℤ), (0:ℤ)) ∈ moves := by decide
        have hfree : addC ((3 + j : ℤ), (0:ℤ), (0:ℤ)) (1, 0, 0) ∉ sealedOcc := by
          simp only [addC, sealedOcc, Finset.mem_insert, Finset.mem_singleton,
            Prod.ext_iff]
          omega
        obtain ⟨gy, hy, _⟩ := hclose (1, 0, 0) hd1 hfree
        refine ⟨gy, ?_⟩
        have hconv : ((3 + ((j + 1 : ℕ) : ℤ)), (0:ℤ), (0:ℤ)) =
            addC ((3 + j : ℤ), (0:ℤ), (0:ℤ)) (1, 0, 0) := by
          simp only [addC, Prod.ext_iff]
          refine ⟨?_, ?_, ?_⟩ <;> push_cast <;> omega
        rw [hconv]
        exact hy
  set K := st.gm.map Prod.fst with hK
  have hmemK : ∀ k : ℕ, ((3 + k : ℤ), (0:ℤ), (0:ℤ)) ∈ K := by
    intro k
    obtain ⟨v, hv⟩ := ray k
    exact lookupA_mem st.gm _ v hv
  have hinj : Function.Injective (fun k : ℕ => ((3 + k : ℤ), (0:ℤ), (0:ℤ))) := by
    intro a b hab
    have := congrArg (fun q : Coord => q.1) hab
    simp only [] at this
    omega
  have hsub : (Finset.range (K.length + 1)).image
      (fun k : ℕ => ((3 + k : ℤ), (0:ℤ), (0:ℤ))) ⊆ K.toFinset := by
    intro x hx
    obtain ⟨k, _, hk⟩ := Finset.mem_image.mp hx
    rw [← hk]
    exact List.mem_toFinset.mpr (hmemK k)
  have hcard1 : ((Finset.range (K.length + 1)).image
      (fun k : ℕ => ((3 + k : ℤ), (0:ℤ), (0:ℤ)))).card = K.length + 1 := by
    rw [Finset.card_image_of_injective _ hinj, Finset.card_range]
  have hcard2 := Finset.card_le_card hsub
  have hcard3 := List.toFinset_card_le K
  omega

/-- On the sealed instance the loop never terminates: every iteration pops
a free non-goal cell and recurses with the invariants intact. -/
theorem seal_loop :
    ∀ fuel (st : AState),
      Inv ((3:ℤ), (0:ℤ), (0:ℤ)) ((0:ℤ), (0:ℤ), (0:ℤ)) sealedOcc st →
      SealInv st →
      astarLoop pyTb ((0:ℤ), (0:ℤ), (0:ℤ)) sealedOcc fuel st = .running := by
  intro fuel
  induction fuel with
  | zero => intro st _ _; exact astarLoop_zero _ _ _ _
  | succ n ih =>
    intro st hI hS
    obtain ⟨op, gmS, cameS⟩ := st
    rcases op with _ | ⟨e, rest⟩
    · exact absurd rfl (seal_open_ne_nil hI hS)
    · rw [astarLoop_cons]
      have hmem : selMin pyTb e rest ∈ (AState.mk (e :: rest) gmS cameS).openL :=
        selMin_mem pyTb rest e
      obtain ⟨gcur, hgcur, hdisj⟩ := hI.1.openg (selMin pyTb e rest).1
        (selMin pyTb e rest).2 (by rw [Prod.mk.eta]; exact hmem)
      have hmg : (selMin pyTb e rest).2 ≠ ((0:ℤ), (0:ℤ), (0:ℤ)) := by
        intro he
        rw [he] at hgcur
        rw [hS.2] at hgcur
        exact Option.noConfusion hgcur
      rw [if_neg hmg]
      rw [show lookupA gmS (selMin pyTb e rest).2 =
        lookupA (AState.mk (e :: rest) gmS cameS).gm (selMin pyTb e rest).2 from rfl,
        hgcur]
      obtain ⟨gcur2, hgcur2, hI2⟩ := step_inv (selMin pyTb e rest) hI hmem hmg
      have hgeq : gcur2 = gcur := by
        rw [hgcur] at hgcur2
        exact (Option.some_inj.mp hgcur2).symm
      rw [hgeq] at hI2
      have hcfree : (selMin pyTb e rest).2 ∉ sealedOcc :=
        hS.1 (selMin pyTb e rest).1 (selMin pyTb e rest).2
          (by rw [Prod.mk.eta]; exact hmem)
      have hS2 : SealInv (expand ((0:ℤ), (0:ℤ), (0:ℤ)) sealedOcc
          (selMin pyTb e rest).2 gcur
          { AState.mk (e :: rest) gmS cameS with
              openL := eraseE (e :: rest) (selMin pyTb e rest) }) := by
        refine seal_expand hcfree moves (fun d hd => hd) _ ?_
        constructor
        · intro pri x hx
          exact hS.1 pri x (mem_of_mem_eraseE _ _ _ hx)
        · exact hS.2
      exact ih _ hI2 hS2

/-- C2: with the goal voxel `(0,0,0)` sealed on all six faces and the
start voxel `(3,0,0)` in the surrounding infinite free region, `astar`
never terminates — for every fuel bound the loop is still running, so it
neither reports that no path exists nor lets `generate_safe_path` raise
its failure; the claimed `PathNotFound` outcome is unreachable. -/
theorem astar_sealed_goal_never_terminates :
    ((0:ℤ), (0:ℤ), (0:ℤ)) ∉ sealedOcc ∧
    (∀ d ∈ moves, addC ((0:ℤ), (0:ℤ), (0:ℤ)) d ∈ sealedOcc) ∧
    (∀ fuel, astar ((3:ℤ), (0:ℤ), (0:ℤ)) ((0:ℤ), (0:ℤ), (0:ℤ)) sealedOcc fuel =
      .running) ∧
    (∀ fuel, generate_safe_path ((3:ℚ), (0:ℚ), (0:ℚ)) ((0:ℚ), (0:ℚ), (0:ℚ))
      sealedOcc 1 60 fuel = none) := by
  have hrun : ∀ fuel,
      astar ((3:ℤ), (0:ℤ), (0:ℤ)) ((0:ℤ), (0:ℤ), (0:ℤ)) sealedOcc fuel =
        .running := by
    intro fuel
    refine seal_loop fuel (initState ((3:ℤ), (0:ℤ), (0:ℤ)))
      (inv_init _ _ _) ⟨?_, ?_⟩
    · intro pri x hx
      have he : (pri, x) = ((0:ℕ), ((3:ℤ), (0:ℤ), (0:ℤ))) := List.mem_singleton.mp hx
      have hx2 : x = ((3:ℤ), (0:ℤ), (0:ℤ)) := congrArg Prod.snd he
      rw [hx2]
      decide
    · decide
  refine ⟨by decide, by decide, hrun, ?_⟩
  intro fuel
  have hv3 : pyVox ((3:ℚ), (0:ℚ), (0:ℚ)) 1 = ((3:ℤ), (0:ℤ), (0:ℤ)) := by
    norm_num [pyVox, pyInt]
  have hv0 : pyVox ((0:ℚ), (0:ℚ), (0:ℚ)) 1 = ((0:ℤ), (0:ℤ), (0:ℤ)) := by
    norm_num [pyVox, pyInt]
  rw [generate_safe_path, hv3, hv0, hrun fuel]

/-! ## C1: optimality and termination on feasible instances -/

/-- Admissibility: along a 6-connected chain ending at the goal, the
heuristic at the head never exceeds the number of remaining steps. -/
theorem chain_hDist (goal : Coord) :
    ∀ (l : List Coord) (a : Coord), List.Chain' Step (a :: l) →
      (a :: l).getLast? = some goal → hDist a goal ≤ l.length := by
  intro l
  induction l with
  | nil =>
    intro a _ hlast
    have ha : a = goal := Option.some_inj.mp hlast
    rw [ha, hDist_self]
    exact Nat.zero_le _
  | cons b t ih =>
    intro a hchain hlast
    obtain ⟨hstep, hchain2⟩ := List.chain'_cons.mp hchain
    have hlast2 : (b :: t).getLast? = some goal := by
      rw [List.getLast?_cons_cons] at hlast
      exact hlast
    have hb := ih b hchain2 hlast2
    have htri := hDist_triangle a b goal
    unfold Step at hstep
    simp only [List.length_cons]
    omega

/-- The walk lemma: if every node recorded within the budget has been
fully relaxed, then following a free route transfers cost bounds from the
start all the way to the goal. -/
theorem walk_bound {goal : Coord} {occ : Finset Coord} {st : AState} {bar : ℕ}
    (hP : ∀ x gx, lookupA st.gm x = some gx → gx + hDist x goal ≤ bar →
      ∀ d ∈ moves, addC x d ∉ occ →
        ∃ gy, lookupA st.gm (addC x d) = some gy ∧ gy ≤ gx + 1) :
    ∀ (l : List Coord) (a : Coord) (n : ℕ),
      List.Chain' Step (a :: l) → (∀ x ∈ a :: l, x ∉ occ) →
      (a :: l).getLast? = some goal →
      (∃ ga, lookupA st.gm a = some ga ∧ ga ≤ n) →
      n + l.length ≤ bar →
      ∃ gg, lookupA st.gm goal = some gg ∧ gg ≤ n + l.length := by
  intro l
  induction l with
  | nil =>
    intro a n _ _ hlast ⟨ga, hga, hle⟩ _
    have ha : a = goal := Option.some_inj.mp hlast
    rw [ha] at hga
    exact ⟨ga, hga, by simpa using hle⟩
  | cons b t ih =>
    intro a n hchain hfree hlast ⟨ga, hga, hle⟩ hbar
    obtain ⟨hstep, hchain2⟩ := List.chain'_cons.mp hchain
    obtain ⟨d, hd, hbd⟩ := (step_iff_move a b).mp hstep
    have hha : hDist a goal ≤ t.length + 1 := by
      have := chain_hDist goal (b :: t) a hchain hlast
      simpa using this
    have hbud : ga + hDist a goal ≤ bar := by
      simp only [List.length_cons] at hbar
      omega
    have hbfree : addC a d ∉ occ := by
      rw [← hbd]
      exact hfree b (List.mem_cons_of_mem _ (List.mem_cons_self _ _))
    obtain ⟨gb, hgb, hgble⟩ := hP a ga hga hbud d hd hbfree
    rw [← hbd] at hgb
    have hlast2 : (b :: t).getLast? = some goal := by
      rw [List.getLast?_cons_cons] at hlast
      exact hlast
    have hfree2 : ∀ x ∈ b :: t, x ∉ occ :=
      fun x hx => hfree x (List.mem_cons_of_mem _ hx)
    obtain ⟨gg, hgg, hggle⟩ := ih b (n + 1) hchain2 hfree2 hlast2
      ⟨gb, hgb, by omega⟩ (by simp only [List.length_cons] at hbar ⊢; omega)
    refine ⟨gg, hgg, ?_⟩
    simp only [List.length_cons]
    omega

/-- On a feasible instance, every entry popped from the heap has priority
at most the step count of any known free route. -/
theorem pop_le {start goal : Coord} {occ : Finset Coord} {st : AState}
    (tb : Entry → Entry → Bool) {e : Entry} {rest : List Entry}
    (hI : Inv start goal occ st) (hop : st.openL = e :: rest)
    {q : List Coord} (hq : FreePath occ start goal q) :
    (selMin tb e rest).1 ≤ q.length - 1 := by
  by_contra hgt
  push_neg at hgt
  obtain ⟨hqh, hql, hqc, hqf⟩ := hq
  rcases q with _ | ⟨s, l⟩
  · exact Option.noConfusion hqh
  have hs : s = start := Option.some_inj.mp hqh
  have hmq : (s :: l).length - 1 = l.length := by simp
  rw [hmq] at hgt
  have hP : ∀ x gx, lookupA st.gm x = some gx → gx + hDist x goal ≤ l.length →
      ∀ d ∈ moves, addC x d ∉ occ →
        ∃ gy, lookupA st.gm (addC x d) = some gy ∧ gy ≤ gx + 1 := by
    intro x gx hgx hbud d hd hfree
    rcases hI.2 x gx hgx with ⟨pri, hmem, hle⟩ | hclose
    · have hmin : (selMin tb e rest).1 ≤ pri := by
        rw [hop] at hmem
        exact selMin_le tb rest e (pri, x) hmem
      omega
    · exact hclose d hd hfree
  have hstart : ∃ ga, lookupA st.gm s = some ga ∧ ga ≤ 0 := by
    rw [hs]
    exact ⟨0, hI.1.gstart, le_refl 0⟩
  obtain ⟨gg, hgg, hggle⟩ :=
    walk_bound hP l s 0 hqc hqf hql hstart (by omega)
  obtain ⟨pri2, hmem2, hle2⟩ := hI.1.goalopen gg hgg
  have hmin2 : (selMin tb e rest).1 ≤ pri2 := by
    rw [hop] at hmem2
    exact selMin_le tb rest e (pri2, goal) hmem2
  omega

/-- With an empty heap on a feasible instance the invariant is
contradictory: the free route would force the goal into `g`, whose entry
must then still be on the (empty) heap. -/
theorem open_empty_absurd {start goal : Coord} {occ : Finset Coord}
    {st : AState} (hI : Inv start goal occ st) (hop : st.openL = [])
    {q : List Coord} (hq : FreePath occ start goal q) : False := by
  obtain ⟨hqh, hql, hqc, hqf⟩ := hq
  rcases q with _ | ⟨s, l⟩
  · exact Option.noConfusion hqh
  have hs : s = start := Option.some_inj.mp hqh
  have hP : ∀ x gx, lookupA st.gm x = some gx → gx + hDist x goal ≤ l.length →
      ∀ d ∈ moves, addC x d ∉ occ →
        ∃ gy, lookupA st.gm (addC x d) = some gy ∧ gy ≤ gx + 1 := by
    intro x gx hgx _ d hd hfree
    rcases hI.2 x gx hgx with ⟨pri, hmem, _⟩ | hclose
    · rw [hop] at hmem
      exact absurd hmem (List.not_mem_nil _)
    · exact hclose d hd hfree
  have hstart : ∃ ga, lookupA st.gm s = some ga ∧ ga ≤ 0 := by
    rw [hs]
    exact ⟨0, hI.1.gstart, le_refl 0⟩
  obtain ⟨gg, hgg, _⟩ := walk_bound hP l s 0 hqc hqf hql hstart (by omega)
  obtain ⟨pri2, hmem2, _⟩ := hI.1.goalopen gg hgg
  rw [hop] at hmem2
  exact absurd hmem2 (List.not_mem_nil _)

/-- The loop can never report `nopath` on a feasible instance. -/
theorem astarLoop_no_nopath {start goal : Coord} {occ : Finset Coord}
    (tb : Entry → Entry → Bool) {q : List Coord}
    (hq : FreePath occ start goal q) :
    ∀ fuel (st : AState), Inv start goal occ st →
      astarLoop tb goal occ fuel st ≠ .nopath := by
  intro fuel
  induction fuel with
  | zero =>
    intro st _ h
    rw [astarLoop_zero] at h
    exact AOut.noConfusion h
  | succ n ih =>
    intro st hI h
    obtain ⟨op, gmS, cameS⟩ := st
    rcases op with _ | ⟨e, rest⟩
    · exact open_empty_absurd hI rfl hq
    · rw [astarLoop_cons] at h
      by_cases hmg : (selMin tb e rest).2 = goal
      · rw [if_pos hmg] at h
        rcases hreb : rebuild cameS (cameS.length + 1) goal with _ | l
        · rw [hreb] at h
          exact AOut.noConfusion h
        · rw [hreb] at h
          exact AOut.noConfusion h
      · rw [if_neg hmg] at h
        have hmem : selMin tb e rest ∈ (AState.mk (e :: rest) gmS cameS).openL :=
          selMin_mem tb rest e
        obtain ⟨gcur, hgcur, hI2⟩ := step_inv (selMin tb e rest) hI hmem hmg
        rw [show lookupA gmS (selMin tb e rest).2 =
          lookupA (AState.mk (e :: rest) gmS cameS).gm (selMin tb e rest).2 from rfl,
          hgcur] at h
        exact ih _ hI2 h

/-- The start of a free route is a free cell. -/
theorem freePath_start_free {start goal : Coord} {occ : Finset Coord}
    {q : List Coord} (hq : FreePath occ start goal q) : start ∉ occ := by
  obtain ⟨hqh, _, _, hqf⟩ := hq
  rcases q with _ | ⟨s, l⟩
  · exact Option.noConfusion hqh
  have hs : s = start := Option.some_inj.mp hqh
  rw [← hs]
  exact hqf s (List.mem_cons_self _ _)

/-- The heuristic at the start is bounded by the route's step count. -/
theorem freePath_hDist {start goal : Coord} {occ : Finset Coord}
    {q : List Coord} (hq : FreePath occ start goal q) :
    hDist start goal ≤ q.length - 1 := by
  obtain ⟨hqh, hql, hqc, _⟩ := hq
  rcases q with _ | ⟨s, l⟩
  · exact Option.noConfusion hqh
  have hs : s = start := Option.some_inj.mp hqh
  have := chain_hDist goal l s hqc hql
  simp only [List.length_cons, Nat.add_sub_cancel]
  rw [← hs]
  exact this

/-- Cost and position bounds for the popped node on a feasible instance. -/
theorem pop_node_bounds {start goal : Coord} {occ : Finset Coord} {st : AState}
    (tb : Entry → Entry → Bool) {e : Entry} {rest : List Entry}
    (hI : Inv start goal occ st) (hop : st.openL = e :: rest)
    {q : List Coord} (hq : FreePath occ start goal q) :
    ∃ gcur, lookupA st.gm (selMin tb e rest).2 = some gcur ∧
      gcur ≤ q.length - 1 ∧ hDist (selMin tb e rest).2 goal ≤ q.length - 1 := by
  have hprile := pop_le tb hI hop hq
  have hmem : selMin tb e rest ∈ st.openL := by
    rw [hop]
    exact selMin_mem tb rest e
  obtain ⟨gv, hgv, hdisj⟩ := hI.1.openg (selMin tb e rest).1 (selMin tb e rest).2
    (by rw [Prod.mk.eta]; exact hmem)
  rcases hdisj with hle | ⟨hst, _⟩
  · exact ⟨gv, hgv, by omega, by omega⟩
  · have hgv0 : gv = 0 := by
      rw [hst] at hgv
      rw [hI.1.gstart] at hgv
      exact (Option.some_inj.mp hgv).symm
    refine ⟨gv, hgv, by omega, ?_⟩
    rw [hst]
    exact freePath_hDist hq

/-- A relaxation from a budget-respecting node preserves the budget. -/
theorem gBound_relax {goal : Coord} {occ : Finset Coord} {cur : Coord}
    {gcur mq : ℕ} {d : Coord} (hd : d ∈ moves) (hg1 : gcur ≤ mq)
    (hh : hDist cur goal ≤ mq) {st : AState} (hB : gBound goal mq st) :
    gBound goal mq (relax goal occ cur gcur st d) := by
  rcases relax_cases goal occ cur gcur st d with ⟨_, he⟩ | ⟨_, _, he⟩ | ⟨_, _, he⟩
  · rw [he]
    exact hB
  · rw [he]
    exact hB
  · rw [he]
    intro x v hv
    rw [show (pushState goal cur gcur st (addC cur d)).gm =
      (addC cur d, gcur + 1) :: st.gm from rfl, lookupA_cons] at hv
    by_cases hx : addC cur d = x
    · have hv2 : gcur + 1 = v := by
        rw [if_pos hx] at hv
        exact Option.some_inj.mp hv
      have hstep := hDist_step_le (step_of_move cur d hd) goal
      constructor
      · omega
      · rw [← hx]
        omega
    · rw [if_neg hx] at hv
      exact hB x v hv

/-- The expansion fold preserves the budget. -/
theorem gBound_expand {goal : Coord} {occ : Finset Coord} {cur : Coord}
    {gcur mq : ℕ} (hg1 : gcur ≤ mq) (hh : hDist cur goal ≤ mq) :
    ∀ (ds : List Coord), (∀ d ∈ ds, d ∈ moves) → ∀ st : AState,
      gBound goal mq st →
      gBound goal mq (ds.foldl (relax goal occ cur gcur) st) := by
  intro ds
  induction ds with
  | nil => intro _ st hB; exact hB
  | cons d0 rest ih =>
    intro hsub st hB
    exact ih (fun d hd => hsub d (List.mem_cons_of_mem _ hd)) _
      (gBound_relax (hsub d0 (List.mem_cons_self _ _)) hg1 hh hB)

/-- Slack of a node other than the pushed one is unchanged. -/
theorem slack_push_ne {mq : ℕ} (gm : List (Coord × ℕ)) (nxt : Coord) (c : ℕ)
    (x : Coord) (hx : x ≠ nxt) : slack mq ((nxt, c) :: gm) x = slack mq gm x := by
  unfold slack
  rw [lookupA_cons, if_neg (fun he => hx he.symm)]

/-- Slack of the pushed node becomes its new cost. -/
theorem slack_push_self {mq : ℕ} (gm : List (Coord × ℕ)) (nxt : Coord) (c : ℕ) :
    slack mq ((nxt, c) :: gm) nxt = c := by
  unfold slack
  rw [lookupA_cons, if_pos rfl]

/-- One relaxation never increases the termination potential. -/
theorem phi_relax_le {goal : Coord} {occ : Finset Coord} {cur : Coord}
    {gcur mq : ℕ} {d : Coord} (hd : d ∈ moves) (hg1 : gcur ≤ mq)
    (hh : hDist cur goal ≤ mq) (st : AState) :
    phi goal mq (relax goal occ cur gcur st d) ≤ phi goal mq st := by
  rcases relax_cases goal occ cur gcur st d with ⟨_, he⟩ | ⟨_, _, he⟩ | ⟨_, hcond, he⟩
  · rw [he]
  · rw [he]
  · rw [he]
    have hstep := hDist_step_le (step_of_move cur d hd) goal
    have hbox : addC cur d ∈ box goal (mq + 1) := mem_box_of_hDist (by omega)
    have hslack : gcur + 2 ≤ slack mq st.gm (addC cur d) := by
      rcases hcond with hn | ⟨gv, hgv, hlt⟩
      · unfold slack
        rw [hn]
        show gcur + 2 ≤ mq + 2
        omega
      · unfold slack
        rw [hgv]
        show gcur + 2 ≤ gv
        omega
    have e2 : slack mq st.gm (addC cur d) +
        ∑ x ∈ (box goal (mq + 1)).erase (addC cur d), slack mq st.gm x =
        ∑ x ∈ box goal (mq + 1), slack mq st.gm x :=
      Finset.add_sum_erase _ _ hbox
    have e1 : slack mq ((addC cur d, gcur + 1) :: st.gm) (addC cur d) +
        ∑ x ∈ (box goal (mq + 1)).erase (addC cur d),
          slack mq ((addC cur d, gcur + 1) :: st.gm) x =
        ∑ x ∈ box goal (mq + 1), slack mq ((addC cur d, gcur + 1) :: st.gm) x :=
      Finset.add_sum_erase _ _ hbox
    have e3 : ∑ x ∈ (box goal (mq + 1)).erase (addC cur d),
        slack mq ((addC cur d, gcur + 1) :: st.gm) x =
        ∑ x ∈ (box goal (mq + 1)).erase (addC cur d), slack mq st.gm x := by
      refine Finset.sum_congr rfl ?_
      intro x hx
      exact slack_push_ne st.gm (addC cur d) (gcur + 1) x (Finset.mem_erase.mp hx).1
    have e4 : slack mq ((addC cur d, gcur + 1) :: st.gm) (addC cur d) = gcur + 1 :=
      slack_push_self st.gm (addC cur d) (gcur + 1)
    have hphi1 : phi goal mq (pushState goal cur gcur st (addC cur d)) =
        st.openL.length + 1 +
          ∑ x ∈ box goal (mq + 1), slack mq ((addC cur d, gcur + 1) :: st.gm) x := by
      unfold phi pushState
      simp only [List.length_cons]
    have hphi2 : phi goal mq st =
        st.openL.length + ∑ x ∈ box goal (mq + 1), slack mq st.gm x := rfl
    omega

/-- The expansion fold never increases the termination potential. -/
theorem phi_expand_le {goal : Coord} {occ : Finset Coord} {cur : Coord}
    {gcur mq : ℕ} (hg1 : gcur ≤ mq) (hh : hDist cur goal ≤ mq) :
    ∀ (ds : List Coord), (∀ d ∈ ds, d ∈ moves) → ∀ st : AState,
      phi goal mq (ds.foldl (relax goal occ cur gcur) st) ≤ phi goal mq st := by
  intro ds
  induction ds with
  | nil => intro _ st; exact le_refl _
  | cons d0 rest ih =>
    intro hsub st
    calc phi goal mq (rest.foldl (relax goal occ cur gcur)
          (relax goal occ cur gcur st d0))
        ≤ phi goal mq (relax goal occ cur gcur st d0) :=
          ih (fun d hd => hsub d (List.mem_cons_of_mem _ hd)) _
      _ ≤ phi goal mq st :=
          phi_relax_le (hsub d0 (List.mem_cons_self _ _)) hg1 hh st

/-- One full loop iteration strictly decreases the termination potential. -/
theorem phi_step_lt (occ : Finset Coord) {goal : Coord} {st : AState}
    {m : Entry} {gcur mq : ℕ} (hm : m ∈ st.openL) (hg1 : gcur ≤ mq)
    (hh : hDist m.2 goal ≤ mq) :
    phi goal mq (expand goal occ m.2 gcur { st with openL := eraseE st.openL m }) <
      phi goal mq st := by
  have h1 : phi goal mq (expand goal occ m.2 gcur
      { st with openL := eraseE st.openL m }) ≤
      phi goal mq { st with openL := eraseE st.openL m } :=
    phi_expand_le hg1 hh moves (fun d hd => hd) _
  have h2 : phi goal mq { st with openL := eraseE st.openL m } + 1 =
      phi goal mq st := by
    unfold phi
    simp only []
    have := eraseE_length st.openL m hm
    omega
  omega

/-- With fuel exceeding the potential, the loop terminates with a result:
either a found path or (excluded elsewhere on feasible instances) the
no-path report. -/
theorem astarLoop_terminates {start goal : Coord} {occ : Finset Coord}
    (tb : Entry → Entry → Bool) {q : List Coord}
    (hq : FreePath occ start goal q) :
    ∀ n (st : AState), Inv start goal occ st → gBound goal (q.length - 1) st →
      phi goal (q.length - 1) st < n →
      (∃ p, astarLoop tb goal occ n st = .found p) ∨
        astarLoop tb goal occ n st = .nopath := by
  intro n
  induction n with
  | zero =>
    intro st _ _ hphi
    omega
  | succ k ih =>
    intro st hI hB hphi
    obtain ⟨op, gmS, cameS⟩ := st
    rcases op with _ | ⟨e, rest⟩
    · exact Or.inr (astarLoop_nil tb goal occ k gmS cameS)
    · rw [astarLoop_cons]
      by_cases hmg : (selMin tb e rest).2 = goal
      · rw [if_pos hmg]
        have hmem : selMin tb e rest ∈
            (AState.mk (e :: rest) gmS cameS).openL :=
          selMin_mem tb rest e
        obtain ⟨gg, hgg, _⟩ := hI.1.openg (selMin tb e rest).1 (selMin tb e rest).2
          (by rw [Prod.mk.eta]; exact hmem)
        rw [hmg] at hgg
        have hfuel : gg + 1 ≤ cameS.length + 1 := by
          have h2 : gg < cameS.length := (hI.1.gkeys goal gg hgg).2
          omega
        obtain ⟨l, hreb, _, _, _, _, _, _⟩ :=
          rebuild_ok hI.1 (cameS.length + 1) gg goal hgg hfuel
        rw [hreb]
        exact Or.inl ⟨l.reverse, rfl⟩
      · rw [if_neg hmg]
        obtain ⟨gcur, hgcur, hgle, hhle⟩ := pop_node_bounds tb hI rfl hq
        rw [show lookupA gmS (selMin tb e rest).2 =
          lookupA (AState.mk (e :: rest) gmS cameS).gm (selMin tb e rest).2 from rfl,
          hgcur]
        have hmem : selMin tb e rest ∈
            (AState.mk (e :: rest) gmS cameS).openL :=
          selMin_mem tb rest e
        obtain ⟨gcur2, hgcur2, hI2⟩ := step_inv (selMin tb e rest) hI hmem hmg
        have hgeq : gcur2 = gcur := by
          rw [hgcur] at hgcur2
          exact (Option.some_inj.mp hgcur2).symm
        rw [hgeq] at hI2
        have hI3 : Inv start goal occ
            (expand goal occ (selMin tb e rest).2 gcur
              (AState.mk (eraseE (e :: rest) (selMin tb e rest)) gmS cameS)) := hI2
        have hBmid : gBound goal (q.length - 1)
            (AState.mk (eraseE (e :: rest) (selMin tb e rest)) gmS cameS) := hB
        have hB2 : gBound goal (q.length - 1)
            (moves.foldl (relax goal occ (selMin tb e rest).2 gcur)
              (AState.mk (eraseE (e :: rest) (selMin tb e rest)) gmS cameS)) :=
          gBound_expand hgle hhle moves (fun d hd => hd) _ hBmid
        have hB3 : gBound goal (q.length - 1)
            (expand goal occ (selMin tb e rest).2 gcur
              (AState.mk (eraseE (e :: rest) (selMin tb e rest)) gmS cameS)) := hB2
        have hphi1 := phi_step_lt occ hmem hgle hhle
        have hphi2 : phi goal (q.length - 1)
            (expand goal occ (selMin tb e rest).2 gcur
              (AState.mk (eraseE (e :: rest) (selMin tb e rest)) gmS cameS)) <
            phi goal (q.length - 1) (AState.mk (e :: rest) gmS cameS) := hphi1
        exact ih _ hI3 hB3 (by omega)

/-- Whenever the loop returns a path on a feasible instance, no free route
is shorter. -/
theorem astarLoop_found_min {start goal : Coord} {occ : Finset Coord}
    (tb : Entry → Entry → Bool) :
    ∀ fuel (st : AState) (p : List Coord), Inv start goal occ st →
      astarLoop tb goal occ fuel st = .found p →
      ∀ r, FreePath occ start goal r → p.length ≤ r.length := by
  intro fuel
  induction fuel with
  | zero =>
    intro st p _ h
    rw [astarLoop_zero] at h
    exact absurd h (by simp)
  | succ n ih =>
    intro st p hI h r hr
    obtain ⟨op, gmS, cameS⟩ := st
    rcases op with _ | ⟨e, rest⟩
    · rw [astarLoop_nil] at h
      exact absurd h (by simp)
    · rw [astarLoop_cons] at h
      by_cases hmg : (selMin tb e rest).2 = goal
      · rw [if_pos hmg] at h
        have hmem : selMin tb e rest ∈
            (AState.mk (e :: rest) gmS cameS).openL :=
          selMin_mem tb rest e
        obtain ⟨gg, hgg, hdisj⟩ := hI.1.openg (selMin tb e rest).1
          (selMin tb e rest).2 (by rw [Prod.mk.eta]; exact hmem)
        rw [hmg] at hgg
        have hggle : gg ≤ (selMin tb e rest).1 := by
          rcases hdisj with hle | ⟨hst, hpri⟩
          · rw [hmg, hDist_self] at hle
            omega
          · have hgs : start = goal := by
              rw [← hmg, ← hst]
            have : gg = 0 := by
              rw [← hgs] at hgg
              rw [hI.1.gstart] at hgg
              exact (Option.some_inj.mp hgg).symm
            omega
        have hprile : (selMin tb e rest).1 ≤ r.length - 1 :=
          pop_le tb hI rfl hr
        have hfuel : gg + 1 ≤ cameS.length + 1 := by
          have h2 : gg < cameS.length := (hI.1.gkeys goal gg hgg).2
          omega
        obtain ⟨l, hreb, _, _, _, _, _, hlen⟩ :=
          rebuild_ok hI.1 (cameS.length + 1) gg goal hgg hfuel
        rw [hreb] at h
        have hp : p = l.reverse := (AOut.found.injEq _ _ ▸ h).symm
        have hrlen : 1 ≤ r.length := by
          obtain ⟨hrh, _, _, _⟩ := hr
          rcases r with _ | ⟨s, t⟩
          · exact Option.noConfusion hrh
          · simp
        rw [hp, List.length_reverse]
        omega
      · rw [if_neg hmg] at h
        have hmem : selMin tb e rest ∈
            (AState.mk (e :: rest) gmS cameS).openL :=
          selMin_mem tb rest e
        obtain ⟨gcur, hgcur, hI2⟩ := step_inv (selMin tb e rest) hI hmem hmg
        rw [show lookupA gmS (selMin tb e rest).2 =
          lookupA (AState.mk (e :: rest) gmS cameS).gm (selMin tb e rest).2 from rfl,
          hgcur] at h
        exact ih _ p hI2 h r hr

/-- C1: on every occupancy set and for every start/goal pair joined by
some 6-connected route through free cells, `astar` terminates with a path
that is itself a free route of minimal step count — under every heap
tie-break order. -/
theorem astar_optimal (tb : Entry → Entry → Bool) (start goal : Coord)
    (occ : Finset Coord) (q : List Coord) (hq : FreePath occ start goal q) :
    ∃ fuel p, astarSearch tb start goal occ fuel = .found p ∧
      FreePath occ start goal p ∧
      ∀ r, FreePath occ start goal r → p.length ≤ r.length := by
  have hInv := inv_init start goal occ
  have hgB : gBound goal (q.length - 1) (initState start) := by
    intro x v hv
    rw [show (initState start).gm = [(start, 0)] from rfl, lookupA_cons] at hv
    by_cases hx : start = x
    · have hv0 : (0 : ℕ) = v := by
        rw [if_pos hx] at hv
        exact Option.some_inj.mp hv
      constructor
      · omega
      · rw [← hx]
        have := freePath_hDist hq
        omega
    · rw [if_neg hx] at hv
      exact Option.noConfusion hv
  have hterm := astarLoop_terminates tb hq
    (phi goal (q.length - 1) (initState start) + 1) (initState start)
    hInv hgB (by omega)
  rcases hterm with ⟨p, hp⟩ | hnp
  · refine ⟨phi goal (q.length - 1) (initState start) + 1, p, hp, ?_, ?_⟩
    · obtain ⟨hval, _⟩ := astarLoop_found_valid tb _ _ p hInv hp
      obtain ⟨h1, h2, h3, h4⟩ := hval
      refine ⟨h1, h2, h3, ?_⟩
      intro x hx
      by_cases hxs : x = start
      · rw [hxs]
        exact freePath_start_free hq
      · exact h4 x hx hxs
    · exact astarLoop_found_min tb _ _ p hInv hp
  · exact absurd hnp (astarLoop_no_nopath tb hq _ _ hInv)

/-- Witness for `astar_optimal` on a two-cell free route with the Python
heap order. -/
theorem astar_optimal_witness :
    FreePath ∅ (0, 0, 0) (1, 0, 0) [(0, 0, 0), (1, 0, 0)] ∧
    (∃ fuel p, astarSearch pyTb (0, 0, 0) (1, 0, 0) ∅ fuel = .found p ∧
      FreePath ∅ (0, 0, 0) (1, 0, 0) p ∧
      ∀ r, FreePath ∅ (0, 0, 0) (1, 0, 0) r → p.length ≤ r.length) := by
  have hfree : FreePath ∅ (0, 0, 0) (1, 0, 0) [(0, 0, 0), (1, 0, 0)] := by
    refine ⟨rfl, rfl, ?_, ?_⟩
    · exact List.chain'_cons.mpr ⟨by decide, List.chain'_singleton _⟩
    · intro x _
      exact Finset.not_mem_empty x
  exact ⟨hfree, astar_optimal pyTb (0, 0, 0) (1, 0, 0) ∅
    [(0, 0, 0), (1, 0, 0)] hfree⟩

end Cinema



